import Mathlib

/-!
# Verification of the TrueTrace vault core

Shallow embedding, in Lean 4, of the encrypted event-sourced entity store
of the TrueTrace vault application, together with theorems settling the
frozen claims about it.

The embedding follows the TypeScript source:

* `reduceEvents` — `app/hooks/useEventStream.ts`, the client-side state
  reducer folding decrypted events into an `EntityState`;
* the share / invite storage and the consume / revoke HTTP routes —
  `app/api/_lib/storage.ts`, `app/api/shares/consume/route.ts`,
  `app/api/shares/revoke/route.ts`, and the invite-consume route;
* the server event store `appendEvent` / `getEventStream` (events lib),
  split into its read and write phases to expose interleavings;
* the client-side shared-event queueing of `useEventStream.ts`
  (`socket.on("sharedEvent")`, `registerSharedKey`, `unregisterSharedKey`),
  modelled as a run-to-completion event handler;
* the event codec `encryptJson` / `decryptJson` (crypto lib), with the
  external libsodium primitives (`crypto_secretbox_easy` /
  `crypto_secretbox_open_easy`, `crypto_generichash`) and the JS built-ins
  (base64, UTF-8 text encoding, `JSON.stringify` / `JSON.parse` on event
  contents) modelled concretely and executably.
-/

namespace TrueTrace

/-! ## The client event model (`useEventStream.ts`)

The source keeps a string `type` tag (`"EntityCreated" | "PropertySet" |
"PropertyDeleted"`) next to an untyped `data` record and casts `data`
according to the tag.  The embedding fuses tag and payload into one closed
sum, which is exactly the information the `switch` in `reduceEvents`
dispatches on. -/

/-- A decrypted client-side event's type tag together with its `data`
payload (`EntityCreatedData` / `PropertySetData` / `PropertyDeletedData`). -/
inductive EventData where
  | entityCreated (entityId : String)
  | propertySet (key value : String)
  | propertyDeleted (key : String)
  deriving DecidableEq, Repr

/-- A decrypted event (`EntityEvent` in the source): `id` and `timestamp`
are carried along but never inspected by the reducer. -/
structure EntityEvent where
  id : String
  timestamp : String
  data : EventData
  deriving DecidableEq, Repr

/-! JS objects (`Record<string, string>`) are modelled as association
lists with JS-object insertion-order semantics: assigning an existing key
updates it in place, assigning a new key appends it, `delete` removes the
binding. -/

/-- `state.properties[key] = value` on a JS object. -/
def setProp : List (String × String) → String → String → List (String × String)
  | [], k, v => [(k, v)]
  | (k', v') :: rest, k, v =>
    if k' = k then (k, v) :: rest else (k', v') :: setProp rest k v

/-- `delete state.properties[key]` on a JS object. -/
def delProp : List (String × String) → String → List (String × String)
  | [], _ => []
  | (k', v') :: rest, k =>
    if k' = k then rest else (k', v') :: delProp rest k

/-- The derived per-entity state (`EntityState` in the source). -/
structure EntityState where
  entityId : String
  properties : List (String × String)
  deriving DecidableEq, Repr

/-- One iteration of the `for (const event of events)` loop body of
`reduceEvents`: the `switch` on `event.type`. -/
def reduceStep (state : EntityState) (event : EntityEvent) : EntityState :=
  match event.data with
  | .entityCreated entityId => { state with entityId := entityId }
  | .propertySet key value =>
      { state with properties := setProp state.properties key value }
  | .propertyDeleted key =>
      { state with properties := delProp state.properties key }

/-- `reduceEvents` from `useEventStream.ts`: returns `null` for an empty
list, otherwise folds the events over an initial state with empty
`entityId` and empty property map, and returns `null` when the final
`entityId` is falsy (the empty string). -/
def reduceEvents (events : List EntityEvent) : Option EntityState :=
  match events with
  | [] => none
  | _ =>
    let state := events.foldl reduceStep ⟨"", []⟩
    if state.entityId = "" then none else some state

/-- The `entityId` carried by an `EntityCreated` event, `none` for the
other event kinds. -/
def createdTag (e : EntityEvent) : Option String :=
  match e.data with
  | .entityCreated i => some i
  | _ => none

/-- The `entityId` carried by the last `EntityCreated` event of a list,
if any. -/
def lastCreatedId : List EntityEvent → Option String
  | [] => none
  | e :: rest => (lastCreatedId rest).or (createdTag e)

/-- The property map produced by applying only the `PropertySet` /
`PropertyDeleted` events of a list, in order, to an initial map. -/
def applyProps (props : List (String × String)) :
    List EntityEvent → List (String × String)
  | [] => props
  | e :: rest =>
    match e.data with
    | .entityCreated _ => applyProps props rest
    | .propertySet k v => applyProps (setProp props k v) rest
    | .propertyDeleted k => applyProps (delProp props k) rest

theorem foldl_reduceStep_entityId (events : List EntityEvent)
    (s : EntityState) :
    (events.foldl reduceStep s).entityId =
      (lastCreatedId events).getD s.entityId := by
  induction events generalizing s with
  | nil => rfl
  | cons e rest ih =>
    simp only [List.foldl_cons, lastCreatedId]
    rw [ih]
    cases hrest : lastCreatedId rest with
    | some i => simp [Option.or]
    | none => cases h : e.data <;> simp [reduceStep, createdTag, h, Option.or]

theorem foldl_reduceStep_properties (events : List EntityEvent)
    (s : EntityState) :
    (events.foldl reduceStep s).properties = applyProps s.properties events := by
  induction events generalizing s with
  | nil => rfl
  | cons e rest ih =>
    cases h : e.data <;> simp [reduceStep, h, applyProps, ih]

theorem applyProps_append (props : List (String × String))
    (xs ys : List EntityEvent) :
    applyProps props (xs ++ ys) = applyProps (applyProps props xs) ys := by
  induction xs generalizing props with
  | nil => rfl
  | cons e xs ih => cases h : e.data <;> simp [applyProps, h, ih]

theorem lastCreatedId_append (xs ys : List EntityEvent) :
    lastCreatedId (xs ++ ys) = (lastCreatedId ys).or (lastCreatedId xs) := by
  induction xs with
  | nil =>
    cases h : lastCreatedId ys <;> simp [lastCreatedId, Option.or, h]
  | cons e xs ih =>
    simp only [List.cons_append, lastCreatedId, ih]
    cases h1 : lastCreatedId ys <;> cases h2 : lastCreatedId xs <;>
      simp [Option.or, ih, h1, h2]

theorem lastCreatedId_of_no_created (xs : List EntityEvent)
    (h : ∀ e ∈ xs, createdTag e = none) :
    lastCreatedId xs = none := by
  induction xs with
  | nil => rfl
  | cons e xs ih =>
    have hrest : lastCreatedId xs = none :=
      ih fun e' he' => h e' (List.mem_cons_of_mem e he')
    simp [lastCreatedId, hrest, h e (List.mem_cons_self e xs), Option.or]

/-- Full characterization of a successful reduction: the resulting
`entityId` is the one of the *last* `EntityCreated` event, and the
property map is the in-order application of all `PropertySet` /
`PropertyDeleted` events. -/
theorem reduceEvents_spec (events : List EntityEvent) (i : String)
    (hlast : lastCreatedId events = some i) (hne : i ≠ "") :
    reduceEvents events = some ⟨i, applyProps [] events⟩ := by
  match events with
  | [] => simp [lastCreatedId] at hlast
  | e :: rest =>
    have hstate : List.foldl reduceStep ⟨"", []⟩ (e :: rest) =
        ⟨i, applyProps [] (e :: rest)⟩ := by
      have h1 := foldl_reduceStep_entityId (e :: rest) ⟨"", []⟩
      have h2 := foldl_reduceStep_properties (e :: rest) ⟨"", []⟩
      rw [hlast] at h1
      cases hf : List.foldl reduceStep ⟨"", []⟩ (e :: rest)
      rw [hf] at h1 h2
      simp only [Option.getD_some] at h1
      simp only at h2
      simp [h1, h2]
    show (if (List.foldl reduceStep ⟨"", []⟩ (e :: rest)).entityId = ""
        then none else some (List.foldl reduceStep ⟨"", []⟩ (e :: rest))) =
      some ⟨i, applyProps [] (e :: rest)⟩
    rw [hstate]
    simp [hne]

theorem reduceEvents_eq_none_iff (S : List EntityEvent) :
    reduceEvents S = none ↔ S = [] ∨ (lastCreatedId S).getD "" = "" := by
  cases S with
  | nil => simp [reduceEvents]
  | cons e rest =>
    have h1 := foldl_reduceStep_entityId (e :: rest) ⟨"", []⟩
    have hform : reduceEvents (e :: rest) =
        (if (List.foldl reduceStep ⟨"", []⟩ (e :: rest)).entityId = ""
          then none else some (List.foldl reduceStep ⟨"", []⟩ (e :: rest))) :=
      rfl
    rw [hform]
    constructor
    · intro h
      right
      by_cases hc : (List.foldl reduceStep ⟨"", []⟩ (e :: rest)).entityId = ""
      · rw [← h1]
        exact hc
      · rw [if_neg hc] at h
        exact absurd h (Option.some_ne_none _)
    · intro h
      rcases h with h | h
      · exact absurd h (List.cons_ne_nil e rest)
      · rw [if_pos (h1.trans h)]

/-- Claim C1 (as stated, refuted): in `reduceEvents` the `switch` arm for
`EntityCreated` assigns `state.entityId` unconditionally, so a second
`EntityCreated` later in the stream overwrites the first: on the
two-event stream below, the reduced `entityId` is `"b"` (the second
event's), not `"a"` (the first event's). -/
theorem claim_C1_counterexample :
    reduceEvents
      [⟨"1", "t1", .entityCreated "a"⟩, ⟨"2", "t2", .entityCreated "b"⟩] =
      some ⟨"b", []⟩ ∧ ("b" : String) ≠ "a" := by
  constructor
  · rfl
  · decide

/-- Claim C1 (amended): for every decrypted event sequence containing an
`EntityCreated` event, reduction yields a state whose `entityId` is the
one carried by the **last** `EntityCreated` event of the stream (provided
that identifier is non-empty); a second `EntityCreated` later in the same
stream **does** overwrite `entityId`. -/
theorem claim_C1 (events : List EntityEvent) (i : String)
    (hlast : lastCreatedId events = some i) (hne : i ≠ "") :
    reduceEvents events = some ⟨i, applyProps [] events⟩ :=
  reduceEvents_spec events i hlast hne

theorem claim_C1_witness :
    reduceEvents
      [⟨"1", "t1", .entityCreated "a"⟩, ⟨"2", "t2", .entityCreated "b"⟩] =
      some ⟨"b", applyProps []
        [⟨"1", "t1", .entityCreated "a"⟩, ⟨"2", "t2", .entityCreated "b"⟩]⟩ :=
  claim_C1 _ "b" rfl (by decide)

/-- Incremental application of a suffix of events to an already-reduced
prefix: the fold over the suffix is resumed from the prefix's folded
state, and the final `state.entityId ? state : null` check of
`reduceEvents` is re-applied. -/
def reduceIncremental (prefixEvents suffixEvents : List EntityEvent) :
    Option EntityState :=
  let prefixState := prefixEvents.foldl reduceStep ⟨"", []⟩
  let finalState := suffixEvents.foldl reduceStep prefixState
  if finalState.entityId = "" then none else some finalState

/-- Claim C4 (confirmed): for every decrypted event sequence `S` and
every split point `n`, reducing the whole of `S` at once yields the same
state as reducing the prefix `S.take n` and then applying the suffix
`S.drop n` incrementally, and reducing the same sequence twice yields the
same state. -/
theorem claim_C4 (S : List EntityEvent) (n : Nat) :
    reduceEvents S = reduceIncremental (S.take n) (S.drop n) ∧
    reduceEvents S = reduceEvents S := by
  refine ⟨?_, rfl⟩
  simp only [reduceIncremental]
  rw [← List.foldl_append, List.take_append_drop]
  cases S with
  | nil => simp [reduceEvents]
  | cons e rest => rfl

/-- Claim C10 (as stated, refuted): the code's final check is on the
truthiness of `state.entityId`, not on the presence of an `EntityCreated`
event, so the one-event stream `[EntityCreated{entityId: ""}]` contains
an `EntityCreated` event yet reduces to `None`. -/
theorem claim_C10_counterexample :
    reduceEvents [⟨"1", "t1", .entityCreated ""⟩] = none ∧
    (⟨"1", "t1", .entityCreated ""⟩ : EntityEvent).data =
      .entityCreated "" := by
  constructor
  · rfl
  · rfl

/-- Claim C10 (amended): `PropertySet` / `PropertyDeleted` events
occurring before the first `EntityCreated` are applied to the state
exactly like later ones, so the reduced property map contains keys set
before the `EntityCreated` event; and a sequence reduces to `None` iff it
is empty or the `entityId` assigned by its last `EntityCreated` event is
the empty string (in particular iff it contains no `EntityCreated` at
all, or only ones carrying a falsy `entityId`). -/
theorem claim_C10 (pre post : List EntityEvent) (ev : EntityEvent)
    (i : String)
    (hpre : ∀ e ∈ pre, createdTag e = none)
    (hpost : ∀ e ∈ post, createdTag e = none)
    (hev : ev.data = .entityCreated i) (hne : i ≠ "") :
    reduceEvents (pre ++ ev :: post) =
      some ⟨i, applyProps (applyProps [] pre) post⟩ ∧
    (∀ S, reduceEvents S = none ↔
      S = [] ∨ (lastCreatedId S).getD "" = "") := by
  constructor
  · have hlast : lastCreatedId (pre ++ ev :: post) = some i := by
      rw [lastCreatedId_append, lastCreatedId_of_no_created pre hpre]
      simp [lastCreatedId, lastCreatedId_of_no_created post hpost,
        createdTag, hev, Option.or]
    have hred := reduceEvents_spec (pre ++ ev :: post) i hlast hne
    rw [hred, applyProps_append]
    have hev' : applyProps (applyProps [] pre) (ev :: post) =
        applyProps (applyProps [] pre) post := by
      simp [applyProps, hev]
    rw [hev']
  · exact reduceEvents_eq_none_iff

theorem claim_C10_witness :
    reduceEvents
      [⟨"1", "t1", .propertySet "k" "v"⟩, ⟨"2", "t2", .entityCreated "a"⟩] =
      some ⟨"a", applyProps (applyProps []
        [⟨"1", "t1", .propertySet "k" "v"⟩]) []⟩ ∧
    (∀ S, reduceEvents S = none ↔
      S = [] ∨ (lastCreatedId S).getD "" = "") :=
  claim_C10 [⟨"1", "t1", .propertySet "k" "v"⟩] []
    ⟨"2", "t2", .entityCreated "a"⟩ "a" (by decide) (by simp) rfl (by decide)

/-! ## Share and invite storage (`app/api/_lib/storage.ts`)

The `_shares.json` / `_invites.json` files hold one JSON object mapping a
code to its record; a JSON object is modelled as an association list.
`delete map[code]` removes the binding of `code` (JSON object keys are
unique, so removing every occurrence and removing the one occurrence
agree). -/

/-- A share credential record (`ShareRecord` in `storage.ts`); the opaque
`sealedKey` blob is kept as a string. -/
structure ShareRecord where
  sourceEntityId : String
  propertyName : String
  sealedKey : String
  expiresAt : Nat
  deriving DecidableEq, Repr

/-- The `_shares.json` object: share code → record. -/
def ShareMap := List (String × ShareRecord)

/-- An invite credential record (`InviteRecord` in `storage.ts`). -/
structure InviteRecord where
  entityId : String
  sealed : String
  expiresAt : Nat
  deriving DecidableEq, Repr

/-- The `_invites.json` object: invite code → record. -/
def InviteMap := List (String × InviteRecord)

/-- `delete map[code]` on a JSON object. -/
def eraseCode {β : Type} : List (String × β) → String → List (String × β)
  | [], _ => []
  | (k, v) :: rest, code =>
    if k = code then eraseCode rest code else (k, v) :: eraseCode rest code

/-- `consumeShare` from `storage.ts`: look the code up; if absent return
`null` leaving the map unchanged, otherwise delete the binding, write the
map back and return the record. -/
def consumeShareStorage (map : ShareMap) (code : String) :
    Option ShareRecord × ShareMap :=
  match List.lookup code map with
  | none => (none, map)
  | some r => (some r, eraseCode map code)

/-- `consumeInvite` from `storage.ts`: identical retrieve-and-delete. -/
def consumeInviteStorage (map : InviteMap) (code : String) :
    Option InviteRecord × InviteMap :=
  match List.lookup code map with
  | none => (none, map)
  | some r => (some r, eraseCode map code)

/-- A live outgoing grant (`OutgoingShare` in `storage.ts`). -/
structure OutgoingShare where
  targetEntityId : String
  propertyName : String
  deriving DecidableEq, Repr

/-- A live incoming grant (`IncomingShare` in `storage.ts`). -/
structure IncomingShare where
  sourceEntityId : String
  propertyName : String
  keyWrapped : String
  deriving DecidableEq, Repr

/-- Per-entity `shares.json` contents (`EntityShares` in `storage.ts`). -/
structure EntityShares where
  outgoing : List OutgoingShare
  incoming : List IncomingShare
  deriving DecidableEq, Repr

/-- All per-entity `shares.json` files: entityId → `EntityShares`. -/
def SharesStore := List (String × EntityShares)

/-- `getShares`: read an entity's `shares.json`, defaulting to empty
lists when the file does not exist. -/
def getShares (store : SharesStore) (entityId : String) : EntityShares :=
  (List.lookup entityId store).getD ⟨[], []⟩

/-- Writing an entity's `shares.json` back. -/
def setShares : SharesStore → String → EntityShares → SharesStore
  | [], e, sh => [(e, sh)]
  | (e', sh') :: rest, e, sh =>
    if e' = e then (e, sh) :: rest else (e', sh') :: setShares rest e sh

/-- `addOutgoingShare` from `storage.ts`: push unless a share with the
same target and property is already present. -/
def addOutgoingShare (store : SharesStore) (entityId : String)
    (share : OutgoingShare) : SharesStore :=
  let shares := getShares store entityId
  if shares.outgoing.any fun s =>
      s.targetEntityId == share.targetEntityId &&
      s.propertyName == share.propertyName then
    store
  else
    setShares store entityId
      { shares with outgoing := shares.outgoing ++ [share] }

/-- `addIncomingShare` from `storage.ts`: push unless a share with the
same source and property is already present. -/
def addIncomingShare (store : SharesStore) (entityId : String)
    (share : IncomingShare) : SharesStore :=
  let shares := getShares store entityId
  if shares.incoming.any fun s =>
      s.sourceEntityId == share.sourceEntityId &&
      s.propertyName == share.propertyName then
    store
  else
    setShares store entityId
      { shares with incoming := shares.incoming ++ [share] }

/-- `removeOutgoingShare` from `storage.ts`: filter out the matching
outgoing shares; write back and return `true` only when the length
changed. -/
def removeOutgoingShare (store : SharesStore) (entityId targetEntityId
    propertyName : String) : Bool × SharesStore :=
  let shares := getShares store entityId
  let filtered := shares.outgoing.filter fun s =>
    !(s.targetEntityId == targetEntityId && s.propertyName == propertyName)
  if filtered.length ≠ shares.outgoing.length then
    (true, setShares store entityId { shares with outgoing := filtered })
  else
    (false, store)

/-- `removeIncomingShare` from `storage.ts`: the mirrored operation on
the incoming list. -/
def removeIncomingShare (store : SharesStore) (entityId sourceEntityId
    propertyName : String) : Bool × SharesStore :=
  let shares := getShares store entityId
  let filtered := shares.incoming.filter fun s =>
    !(s.sourceEntityId == sourceEntityId && s.propertyName == propertyName)
  if filtered.length ≠ shares.incoming.length then
    (true, setShares store entityId { shares with incoming := filtered })
  else
    (false, store)

/-! ## The consume routes (`shares/consume/route.ts`, invites consume) -/

/-- Outcome of `POST /api/shares/consume` (after authentication):
HTTP 400 for a missing code, 404, 410, 400 self-share, or 200 with the
record's fields. -/
inductive ConsumeShareResult where
  | badRequest
  | notFound
  | expired
  | invalidOperation
  | ok (record : ShareRecord)
  deriving DecidableEq, Repr

/-- `POST /api/shares/consume`: reject an empty code, then
retrieve-and-delete via `consumeShare`, then check expiry
(`record.expiresAt < Date.now()`), then reject self-share
(`record.sourceEntityId === targetEntityId`); on success register the
mirrored outgoing and incoming shares.  Returns the HTTP outcome, the
resulting `_shares.json` map, and the resulting per-entity shares
store. -/
def consumeShareRoute (map : ShareMap) (store : SharesStore)
    (code targetEntityId : String) (now : Nat) :
    ConsumeShareResult × ShareMap × SharesStore :=
  if code = "" then (.badRequest, map, store)
  else
    match consumeShareStorage map code with
    | (none, map') => (.notFound, map', store)
    | (some r, map') =>
      if r.expiresAt < now then (.expired, map', store)
      else if r.sourceEntityId = targetEntityId then
        (.invalidOperation, map', store)
      else
        let store1 := addOutgoingShare store r.sourceEntityId
          ⟨targetEntityId, r.propertyName⟩
        let store2 := addIncomingShare store1 targetEntityId
          ⟨r.sourceEntityId, r.propertyName, r.sealedKey⟩
        (.ok r, map', store2)

/-- Outcome of `POST /api/invites/consume`. -/
inductive ConsumeInviteResult where
  | badRequest
  | notFound
  | expired
  | ok (record : InviteRecord)
  deriving DecidableEq, Repr

/-- `POST /api/invites/consume`: reject an empty code, retrieve-and-delete
via `consumeInvite`, then check expiry. -/
def consumeInviteRoute (map : InviteMap) (code : String) (now : Nat) :
    ConsumeInviteResult × InviteMap :=
  if code = "" then (.badRequest, map)
  else
    match consumeInviteStorage map code with
    | (none, map') => (.notFound, map')
    | (some r, map') =>
      if r.expiresAt < now then (.expired, map')
      else (.ok r, map')

/-! ## The revoke route (`shares/revoke/route.ts`) -/

/-- The discriminating field of the revoke request body. -/
inductive RevokeTarget where
  | byTarget (targetEntityId : String)
  | bySource (sourceEntityId : String)
  deriving DecidableEq, Repr

/-- `POST /api/shares/revoke` (after authentication): `none` models the
HTTP 400 for a missing `propertyName`; otherwise remove the share on the
revoking entity's side and, if something was removed, also the mirrored
share on the other side; return the `removed` flag. -/
def revokeShareRoute (store : SharesStore) (entityId propertyName : String)
    (target : RevokeTarget) : Option (Bool × SharesStore) :=
  if propertyName = "" then none
  else some <|
    match target with
    | .byTarget targetEntityId =>
      let (removed, store') :=
        removeOutgoingShare store entityId targetEntityId propertyName
      if removed then
        (true, (removeIncomingShare store' targetEntityId entityId
          propertyName).2)
      else (false, store')
    | .bySource sourceEntityId =>
      let (removed, store') :=
        removeIncomingShare store entityId sourceEntityId propertyName
      if removed then
        (true, (removeOutgoingShare store' sourceEntityId entityId
          propertyName).2)
      else (false, store')

/-! ## Lemmas about the storage model -/

theorem lookup_eraseCode_self {β : Type} (m : List (String × β))
    (code : String) : List.lookup code (eraseCode m code) = none := by
  induction m with
  | nil => rfl
  | cons kv rest ih =>
    obtain ⟨k, v⟩ := kv
    by_cases h : k = code
    · simp [eraseCode, h, ih]
    · have hbeq : (code == k) = false := by
        simp [beq_eq_false_iff_ne]
        exact fun he => h he.symm
      simp [eraseCode, h, List.lookup, hbeq, ih]

theorem getShares_setShares_self (store : SharesStore) (e : String)
    (sh : EntityShares) : getShares (setShares store e sh) e = sh := by
  induction store with
  | nil => simp [setShares, getShares, List.lookup]
  | cons kv rest ih =>
    obtain ⟨e', sh'⟩ := kv
    by_cases h : e' = e
    · simp [setShares, h, getShares, List.lookup]
    · have hbeq : (e == e') = false := by
        simp [beq_eq_false_iff_ne]
        exact fun he => h he.symm
      simp only [setShares, if_neg h]
      simpa [getShares, List.lookup, hbeq] using ih

theorem getShares_setShares_other (store : SharesStore) (e x : String)
    (sh : EntityShares) (hx : x ≠ e) :
    getShares (setShares store e sh) x = getShares store x := by
  induction store with
  | nil =>
    have hbeq : (x == e) = false := by simp [beq_eq_false_iff_ne, hx]
    simp [setShares, getShares, List.lookup, hbeq]
  | cons kv rest ih =>
    obtain ⟨e', sh'⟩ := kv
    by_cases h : e' = e
    · have hbeq : (x == e) = false := by simp [beq_eq_false_iff_ne, hx]
      have hbeq' : (x == e') = false := by
        rw [h]; simp [beq_eq_false_iff_ne, hx]
      simp [setShares, h, getShares, List.lookup, hbeq, hbeq']
    · by_cases hxe : x = e'
      · simp [setShares, if_neg h, getShares, List.lookup, hxe]
      · have hbeq : (x == e') = false := by simp [beq_eq_false_iff_ne, hxe]
        simp only [setShares, if_neg h]
        simpa [getShares, List.lookup, hbeq] using ih

theorem length_filter_not_ne {α : Type} (l : List α) (p : α → Bool)
    (h : ∃ x ∈ l, p x = true) :
    (l.filter fun x => !p x).length ≠ l.length := by
  induction l with
  | nil => simp at h
  | cons a l ih =>
    by_cases hp : p a = true
    · have hle : (l.filter fun x => !p x).length ≤ l.length :=
        List.length_filter_le _ l
      have hdrop : List.filter (fun x => !p x) (a :: l) =
          List.filter (fun x => !p x) l := by
        simp [List.filter_cons, hp]
      rw [hdrop]
      simp only [List.length_cons]
      omega
    · obtain ⟨x, hx, hpx⟩ := h
      cases hx with
      | head => exact absurd hpx hp
      | tail _ hx =>
        have hpa : p a = false := by
          cases hpb : p a
          · rfl
          · exact absurd hpb hp
        have hkeep : List.filter (fun x => !p x) (a :: l) =
            a :: List.filter (fun x => !p x) l := by
          simp [List.filter_cons, hpa]
        have hne := ih ⟨x, hx, hpx⟩
        rw [hkeep]
        simp only [List.length_cons]
        omega

theorem removeOutgoingShare_incoming (store : SharesStore)
    (e t p x : String) :
    (getShares (removeOutgoingShare store e t p).2 x).incoming =
      (getShares store x).incoming := by
  simp only [removeOutgoingShare]
  split
  · by_cases hx : x = e
    · rw [hx, getShares_setShares_self]
    · rw [getShares_setShares_other _ _ _ _ hx]
  · rfl

theorem removeIncomingShare_outgoing (store : SharesStore)
    (e s p x : String) :
    (getShares (removeIncomingShare store e s p).2 x).outgoing =
      (getShares store x).outgoing := by
  simp only [removeIncomingShare]
  split
  · by_cases hx : x = e
    · rw [hx, getShares_setShares_self]
    · rw [getShares_setShares_other _ _ _ _ hx]
  · rfl

theorem removeOutgoingShare_spec (store : SharesStore) (e t p : String)
    (h : ∃ s ∈ (getShares store e).outgoing,
      (s.targetEntityId == t && s.propertyName == p) = true) :
    (removeOutgoingShare store e t p).1 = true ∧
    (getShares (removeOutgoingShare store e t p).2 e).outgoing =
      (getShares store e).outgoing.filter
        (fun s => !(s.targetEntityId == t && s.propertyName == p)) := by
  have hne := length_filter_not_ne (getShares store e).outgoing
    (fun s => s.targetEntityId == t && s.propertyName == p) h
  simp only [removeOutgoingShare]
  rw [if_pos hne]
  exact ⟨rfl, by rw [getShares_setShares_self]⟩

theorem removeIncomingShare_spec (store : SharesStore) (e s p : String)
    (h : ∃ sh ∈ (getShares store e).incoming,
      (sh.sourceEntityId == s && sh.propertyName == p) = true) :
    (removeIncomingShare store e s p).1 = true ∧
    (getShares (removeIncomingShare store e s p).2 e).incoming =
      (getShares store e).incoming.filter
        (fun sh => !(sh.sourceEntityId == s && sh.propertyName == p)) := by
  have hne := length_filter_not_ne (getShares store e).incoming
    (fun sh => sh.sourceEntityId == s && sh.propertyName == p) h
  simp only [removeIncomingShare]
  rw [if_pos hne]
  exact ⟨rfl, by rw [getShares_setShares_self]⟩

theorem removeOutgoingShare_of_not_removed (store : SharesStore)
    (e t p : String) (h : (removeOutgoingShare store e t p).1 = false) :
    (removeOutgoingShare store e t p).2 = store := by
  simp only [removeOutgoingShare] at h ⊢
  split at h
  · simp at h
  · next hcond => rw [if_neg hcond]

theorem removeIncomingShare_of_not_removed (store : SharesStore)
    (e s p : String) (h : (removeIncomingShare store e s p).1 = false) :
    (removeIncomingShare store e s p).2 = store := by
  simp only [removeIncomingShare] at h ⊢
  split at h
  · simp at h
  · next hcond => rw [if_neg hcond]

/-! ## Claims C2, C6, C7, C8 -/

/-- Claim C2 (as stated, refuted): the consume route calls the
retrieve-and-delete `consumeShare` *before* the expiry and self-share
checks, so a consume attempt rejected as a self-share still destroys the
share record: on the store below the response is the self-share
rejection *and* the `_shares.json` map comes back empty. -/
theorem claim_C2_counterexample :
    consumeShareRoute [("X7K2", ⟨"A", "p", "sk", 1000⟩)] [] "X7K2" "A" 0 =
      (.invalidOperation, [], []) := by
  rfl

/-- Claim C2 (amended): `consumeShare(code, targetEntityId)` rejects a
self-share (`sourceEntityId == targetEntityId`, checked after the expiry
check) with an InvalidOperation error, but the share record is destroyed
by *every* consume attempt that retrieves it — failed (expired or
self-share) attempts included — and only a NotFound attempt leaves the
share map unchanged. -/
theorem claim_C2 (map : ShareMap) (store : SharesStore)
    (code target : String) (now : Nat) (hcode : code ≠ "") :
    (∀ r, List.lookup code map = some r → ¬ r.expiresAt < now →
      r.sourceEntityId = target →
      (consumeShareRoute map store code target now).1 = .invalidOperation) ∧
    (∀ r, List.lookup code map = some r →
      (consumeShareRoute map store code target now).2.1 =
        eraseCode map code) ∧
    (List.lookup code map = none →
      (consumeShareRoute map store code target now).2.1 = map) := by
  refine ⟨?_, ?_, ?_⟩
  · intro r hlook hexp hself
    simp [consumeShareRoute, consumeShareStorage, hcode, hlook, hexp, hself]
  · intro r hlook
    simp only [consumeShareRoute, consumeShareStorage, hlook, if_neg hcode]
    split_ifs <;> rfl
  · intro hlook
    simp [consumeShareRoute, consumeShareStorage, hcode, hlook]

theorem claim_C2_witness :
    ((∀ r, List.lookup "X7K2" [("X7K2", (⟨"A", "p", "sk", 1000⟩ : ShareRecord))] = some r →
        ¬ r.expiresAt < 0 → r.sourceEntityId = "A" →
        (consumeShareRoute [("X7K2", ⟨"A", "p", "sk", 1000⟩)] [] "X7K2" "A" 0).1 =
          .invalidOperation) ∧
      (∀ r, List.lookup "X7K2" [("X7K2", (⟨"A", "p", "sk", 1000⟩ : ShareRecord))] = some r →
        (consumeShareRoute [("X7K2", ⟨"A", "p", "sk", 1000⟩)] [] "X7K2" "A" 0).2.1 =
          eraseCode [("X7K2", ⟨"A", "p", "sk", 1000⟩)] "X7K2") ∧
      (List.lookup "X7K2" [("X7K2", (⟨"A", "p", "sk", 1000⟩ : ShareRecord))] = none →
        (consumeShareRoute [("X7K2", ⟨"A", "p", "sk", 1000⟩)] [] "X7K2" "A" 0).2.1 =
          [("X7K2", ⟨"A", "p", "sk", 1000⟩)])) :=
  claim_C2 [("X7K2", ⟨"A", "p", "sk", 1000⟩)] [] "X7K2" "A" 0 (by decide)

/-- Claim C6 (confirmed): a successful consume retrieves-and-deletes the
share record, so a second consume attempt with the same code — whatever
the target entity or time — fails with NotFound. -/
theorem claim_C6 (map : ShareMap) (store : SharesStore)
    (code target : String) (now : Nat) (r : ShareRecord)
    (map1 : ShareMap) (st1 : SharesStore)
    (h : consumeShareRoute map store code target now = (.ok r, map1, st1)) :
    ∀ (store2 : SharesStore) (target2 : String) (now2 : Nat),
      (consumeShareRoute map1 store2 code target2 now2).1 = .notFound := by
  by_cases hcode : code = ""
  · simp [consumeShareRoute, hcode] at h
  · cases hlook : List.lookup code map with
    | none =>
      simp [consumeShareRoute, consumeShareStorage, hcode, hlook] at h
    | some r' =>
      simp only [consumeShareRoute, consumeShareStorage, hlook,
        if_neg hcode] at h
      split_ifs at h with h1 h2
      · simp at h
      · simp at h
      · simp only [Prod.mk.injEq] at h
        obtain ⟨-, hm, -⟩ := h
        intro store2 target2 now2
        have hnone : List.lookup code map1 = none := by
          rw [← hm]
          exact lookup_eraseCode_self map code
        simp [consumeShareRoute, consumeShareStorage, hcode, hnone]

theorem claim_C6_witness :
    (consumeShareRoute [] [] "X7K2" "C" 99 : ConsumeShareResult × ShareMap × SharesStore).1 =
      .notFound :=
  claim_C6 [("X7K2", ⟨"A", "p", "sk", 1000⟩)] [] "X7K2" "B" 0
    ⟨"A", "p", "sk", 1000⟩ []
    [("A", ⟨[⟨"B", "p"⟩], []⟩), ("B", ⟨[], [⟨"A", "p", "sk"⟩]⟩)]
    (by rfl) [] "C" 99

/-- Claim C7 (confirmed): for both share and invite consumption, the
expiry check (`record.expiresAt < Date.now()`) happens after the
retrieve-and-delete, so a code whose stored record is past its expiry is
reported as Expired (not NotFound), while a code with no stored record is
reported as NotFound. -/
theorem claim_C7 (code : String) (now : Nat) (hcode : code ≠ "") :
    (∀ (map : ShareMap) (store : SharesStore) (target : String)
        (r : ShareRecord), List.lookup code map = some r →
      r.expiresAt < now →
      (consumeShareRoute map store code target now).1 = .expired) ∧
    (∀ (map : ShareMap) (store : SharesStore) (target : String),
      List.lookup code map = none →
      (consumeShareRoute map store code target now).1 = .notFound) ∧
    (∀ (imap : InviteMap) (r : InviteRecord),
      List.lookup code imap = some r → r.expiresAt < now →
      (consumeInviteRoute imap code now).1 = .expired) ∧
    (∀ (imap : InviteMap), List.lookup code imap = none →
      (consumeInviteRoute imap code now).1 = .notFound) := by
  refine ⟨?_, ?_, ?_, ?_⟩
  · intro map store target r hlook hexp
    simp [consumeShareRoute, consumeShareStorage, hcode, hlook, hexp]
  · intro map store target hlook
    simp [consumeShareRoute, consumeShareStorage, hcode, hlook]
  · intro imap r hlook hexp
    simp [consumeInviteRoute, consumeInviteStorage, hcode, hlook, hexp]
  · intro imap hlook
    simp [consumeInviteRoute, consumeInviteStorage, hcode, hlook]

theorem claim_C7_witness :
    (consumeShareRoute [("C0DE", ⟨"A", "p", "sk", 5⟩)] [] "C0DE" "B" 10).1 =
        .expired ∧
    (consumeShareRoute [] [] "C0DE" "B" 10).1 = .notFound ∧
    (consumeInviteRoute [("C0DE", ⟨"A", "sealed", 5⟩)] "C0DE" 10).1 =
        .expired ∧
    (consumeInviteRoute [] "C0DE" 10).1 = .notFound := by
  obtain ⟨h1, h2, h3, h4⟩ := claim_C7 "C0DE" 10 (by decide)
  exact ⟨h1 [("C0DE", ⟨"A", "p", "sk", 5⟩)] [] "B" ⟨"A", "p", "sk", 5⟩ rfl
      (by decide),
    h2 [] [] "B" rfl,
    h3 [("C0DE", ⟨"A", "sealed", 5⟩)] ⟨"A", "sealed", 5⟩ rfl (by decide),
    h4 [] rfl⟩

/-- Claim C8 (confirmed): each revocation direction is conditioned only
on the relationship it revokes: whenever the revoking entity has an
OutgoingShare to `target` on `prop` (mirrored by an IncomingShare on the
target), revoking by `targetEntityId` removes both and returns
`removed = true`; whenever the revoking entity has an IncomingShare from
`source` on `prop` (mirrored by an OutgoingShare on the source), revoking
by `sourceEntityId` removes both and returns `removed = true`; and
whenever the route returns `removed = false` nothing was removed (the
store is unchanged). -/
theorem claim_C8 (store : SharesStore) (entityId target source prop : String)
    (hprop : prop ≠ "") :
    ((∃ s ∈ (getShares store entityId).outgoing,
        s.targetEntityId = target ∧ s.propertyName = prop) →
      (∃ s ∈ (getShares store target).incoming,
        s.sourceEntityId = entityId ∧ s.propertyName = prop) →
      ∃ store1, revokeShareRoute store entityId prop (.byTarget target) =
          some (true, store1) ∧
        (∀ s ∈ (getShares store1 entityId).outgoing,
          ¬(s.targetEntityId = target ∧ s.propertyName = prop)) ∧
        (∀ s ∈ (getShares store1 target).incoming,
          ¬(s.sourceEntityId = entityId ∧ s.propertyName = prop))) ∧
    ((∃ s ∈ (getShares store entityId).incoming,
        s.sourceEntityId = source ∧ s.propertyName = prop) →
      (∃ s ∈ (getShares store source).outgoing,
        s.targetEntityId = entityId ∧ s.propertyName = prop) →
      ∃ store2, revokeShareRoute store entityId prop (.bySource source) =
          some (true, store2) ∧
        (∀ s ∈ (getShares store2 entityId).incoming,
          ¬(s.sourceEntityId = source ∧ s.propertyName = prop)) ∧
        (∀ s ∈ (getShares store2 source).outgoing,
          ¬(s.targetEntityId = entityId ∧ s.propertyName = prop))) ∧
    (∀ t st, revokeShareRoute store entityId prop t = some (false, st) →
      st = store) := by
  refine ⟨?_, ?_, ?_⟩
  · -- revoke by target
    intro hout hmirror
    have hout' : ∃ s ∈ (getShares store entityId).outgoing,
        (s.targetEntityId == target && s.propertyName == prop) = true := by
      obtain ⟨s, hs, h1, h2⟩ := hout
      exact ⟨s, hs, by simp [h1, h2]⟩
    obtain ⟨hrem, hget⟩ := removeOutgoingShare_spec store entityId target prop hout'
    set store' := (removeOutgoingShare store entityId target prop).2 with hst
    have hmirror' : ∃ s ∈ (getShares store' target).incoming,
        (s.sourceEntityId == entityId && s.propertyName == prop) = true := by
      obtain ⟨s, hs, h1, h2⟩ := hmirror
      rw [removeOutgoingShare_incoming]
      exact ⟨s, hs, by simp [h1, h2]⟩
    obtain ⟨hrem2, hget2⟩ :=
      removeIncomingShare_spec store' target entityId prop hmirror'
    refine ⟨(removeIncomingShare store' target entityId prop).2, ?_, ?_, ?_⟩
    · simp only [revokeShareRoute, if_neg hprop]
      rcases hpair : removeOutgoingShare store entityId target prop with ⟨b, st⟩
      have hb : b = true := by rw [← hrem, hpair]
      have hst' : st = store' := by rw [hst, hpair]
      subst hb hst'
      simp
    · intro s hs
      rw [removeIncomingShare_outgoing, hget] at hs
      have := List.of_mem_filter hs
      simp only [Bool.not_eq_true'] at this
      intro ⟨h1, h2⟩
      simp [h1, h2] at this
    · intro s hs
      rw [hget2] at hs
      have := List.of_mem_filter hs
      simp only [Bool.not_eq_true'] at this
      intro ⟨h1, h2⟩
      simp [h1, h2] at this
  · -- revoke by source
    intro hin hmirror2
    have hin' : ∃ s ∈ (getShares store entityId).incoming,
        (s.sourceEntityId == source && s.propertyName == prop) = true := by
      obtain ⟨s, hs, h1, h2⟩ := hin
      exact ⟨s, hs, by simp [h1, h2]⟩
    obtain ⟨hrem, hget⟩ := removeIncomingShare_spec store entityId source prop hin'
    set store' := (removeIncomingShare store entityId source prop).2 with hst
    have hmirror' : ∃ s ∈ (getShares store' source).outgoing,
        (s.targetEntityId == entityId && s.propertyName == prop) = true := by
      obtain ⟨s, hs, h1, h2⟩ := hmirror2
      rw [removeIncomingShare_outgoing]
      exact ⟨s, hs, by simp [h1, h2]⟩
    obtain ⟨hrem2, hget2⟩ :=
      removeOutgoingShare_spec store' source entityId prop hmirror'
    refine ⟨(removeOutgoingShare store' source entityId prop).2, ?_, ?_, ?_⟩
    · simp only [revokeShareRoute, if_neg hprop]
      rcases hpair : removeIncomingShare store entityId source prop with ⟨b, st⟩
      have hb : b = true := by rw [← hrem, hpair]
      have hst' : st = store' := by rw [hst, hpair]
      subst hb hst'
      simp
    · intro s hs
      rw [removeOutgoingShare_incoming, hget] at hs
      have := List.of_mem_filter hs
      simp only [Bool.not_eq_true'] at this
      intro ⟨h1, h2⟩
      simp [h1, h2] at this
    · intro s hs
      rw [hget2] at hs
      have := List.of_mem_filter hs
      simp only [Bool.not_eq_true'] at this
      intro ⟨h1, h2⟩
      simp [h1, h2] at this
  · -- removed = false means nothing changed
    intro t st hroute
    simp only [revokeShareRoute, if_neg hprop] at hroute
    cases t with
    | byTarget tgt =>
      dsimp only at hroute
      by_cases hb : (removeOutgoingShare store entityId tgt prop).1 = true
      · rw [if_pos hb] at hroute
        simp at hroute
      · rw [if_neg hb] at hroute
        simp only [Option.some.injEq, Prod.mk.injEq] at hroute
        have hb' : (removeOutgoingShare store entityId tgt prop).1 = false := by
          revert hb
          cases (removeOutgoingShare store entityId tgt prop).1 <;> simp
        have hkeep :=
          removeOutgoingShare_of_not_removed store entityId tgt prop hb'
        rw [← hroute.2, hkeep]
    | bySource src =>
      dsimp only at hroute
      by_cases hb : (removeIncomingShare store entityId src prop).1 = true
      · rw [if_pos hb] at hroute
        simp at hroute
      · rw [if_neg hb] at hroute
        simp only [Option.some.injEq, Prod.mk.injEq] at hroute
        have hb' : (removeIncomingShare store entityId src prop).1 = false := by
          revert hb
          cases (removeIncomingShare store entityId src prop).1 <;> simp
        have hkeep :=
          removeIncomingShare_of_not_removed store entityId src prop hb'
        rw [← hroute.2, hkeep]

/-- Concrete mirrored share store: A shares `"p"` with B, and B shares
`"p"` with A. -/
def mirroredStore : SharesStore :=
  [("A", ⟨[⟨"B", "p"⟩], [⟨"B", "p", "kw2"⟩]⟩),
   ("B", ⟨[⟨"A", "p"⟩], [⟨"A", "p", "kw"⟩]⟩)]

theorem claim_C8_witness :
    (∃ store1, revokeShareRoute mirroredStore "A" "p" (.byTarget "B") =
        some (true, store1) ∧
      (∀ s ∈ (getShares store1 "A").outgoing,
        ¬(s.targetEntityId = "B" ∧ s.propertyName = "p")) ∧
      (∀ s ∈ (getShares store1 "B").incoming,
        ¬(s.sourceEntityId = "A" ∧ s.propertyName = "p"))) ∧
    (∃ store2, revokeShareRoute mirroredStore "A" "p" (.bySource "B") =
        some (true, store2) ∧
      (∀ s ∈ (getShares store2 "A").incoming,
        ¬(s.sourceEntityId = "B" ∧ s.propertyName = "p")) ∧
      (∀ s ∈ (getShares store2 "B").outgoing,
        ¬(s.targetEntityId = "A" ∧ s.propertyName = "p"))) ∧
    (∀ t st, revokeShareRoute mirroredStore "A" "p" t = some (false, st) →
      st = mirroredStore) :=
  have h := claim_C8 mirroredStore "A" "B" "B" "p" (by decide)
  ⟨h.1 (by decide) (by decide), h.2.1 (by decide) (by decide), h.2.2⟩

/-! ## The event store's append (events lib `appendEvent`)

`appendEvent(entityId, payload)` reads the entity's whole `events.json`
(`getEventStream`), pushes the new event onto the in-memory array, and
writes the whole file back.  Nothing in the module guards this
read-modify-write: there is no per-entity lock, queue or actor.  To
analyse two concurrent `appendEvent` calls to the same entity, each call
is split into its two file-system accesses — the `read` (the awaited
`fs.readFile` inside `getEventStream`) and the `write` (the awaited
`fs.writeFile`) — between which the event loop may run the other call's
accesses.  Events are identified by their ids; the log holds ids. -/

/-- One in-flight `appendEvent` call: the event id it will append, the
log snapshot its `getEventStream` returned (once the read happened), and
whether its `fs.writeFile` already ran. -/
structure AppendTask where
  eventId : String
  snapshot : Option (List String)
  written : Bool
  deriving DecidableEq, Repr

/-- The entity's `events.json` together with two in-flight `appendEvent`
calls to that same entity. -/
structure TwoAppends where
  log : List String
  t1 : AppendTask
  t2 : AppendTask
  deriving DecidableEq, Repr

/-- The read phase: `getEventStream` returns the current file contents. -/
def doRead (log : List String) (t : AppendTask) : AppendTask :=
  match t.snapshot with
  | none => { t with snapshot := some log }
  | some _ => t

/-- The write phase: `fs.writeFile` stores `snapshot.push(newEvent)`,
replacing whatever the file held. -/
def doWrite (log : List String) (t : AppendTask) : List String × AppendTask :=
  match t.snapshot, t.written with
  | some snap, false => (snap ++ [t.eventId], { t with written := true })
  | _, _ => (log, t)

/-- A scheduler decision: which call's pending file-system access runs
next. -/
inductive SchedStep where
  | read1
  | read2
  | write1
  | write2
  deriving DecidableEq, Repr

/-- Execute one scheduled file-system access. -/
def runStep (s : TwoAppends) : SchedStep → TwoAppends
  | .read1 => { s with t1 := doRead s.log s.t1 }
  | .read2 => { s with t2 := doRead s.log s.t2 }
  | .write1 =>
    let (log', t1') := doWrite s.log s.t1
    { s with log := log', t1 := t1' }
  | .write2 =>
    let (log', t2') := doWrite s.log s.t2
    { s with log := log', t2 := t2' }

/-- Run a whole interleaving of the two calls' accesses. -/
def runSchedule (s : TwoAppends) (sched : List SchedStep) : TwoAppends :=
  sched.foldl runStep s

/-- Two fresh `appendEvent` calls racing on an empty log. -/
def initTwoAppends (e1 e2 : String) : TwoAppends :=
  ⟨[], ⟨e1, none, false⟩, ⟨e2, none, false⟩⟩

/-- Claim C3 (refuted by the code — the spec requires per-entity
serialization but `appendEvent` takes no lock): under the interleaving
read₁, read₂, write₁, write₂ both `appendEvent` calls complete, yet the
final log — what a subsequent replay returns — contains only the second
event: the first append is lost.  A serialized schedule
(read₁, write₁, read₂, write₂) keeps both, showing the loss is caused
purely by the unguarded interleaving. -/
theorem claim_C3_lost_update :
    (runSchedule (initTwoAppends "e1" "e2")
        [.read1, .read2, .write1, .write2]).t1.written = true ∧
    (runSchedule (initTwoAppends "e1" "e2")
        [.read1, .read2, .write1, .write2]).t2.written = true ∧
    (runSchedule (initTwoAppends "e1" "e2")
        [.read1, .read2, .write1, .write2]).log = ["e2"] ∧
    "e1" ∉ (runSchedule (initTwoAppends "e1" "e2")
        [.read1, .read2, .write1, .write2]).log ∧
    (runSchedule (initTwoAppends "e1" "e2")
        [.read1, .write1, .read2, .write2]).log = ["e1", "e2"] := by
  refine ⟨rfl, rfl, rfl, ?_, rfl⟩
  decide

/-! ## Client-side shared-event queueing (`useEventStream.ts`)

The handlers `socket.on("sharedEvent")`, `registerSharedKey` and
`unregisterSharedKey` are modelled as a run-to-completion event handler
over an action trace: `sharedEvent` either processes the envelope at once
(key cached in `sharedKeysRef`) or appends it to the per-source queue in
`queuedEventsRef`; a successful `registerSharedKey` caches the key,
deletes the queue entry and processes the queued envelopes in order; a
failed one (wrong share code — the `catch` branch) changes nothing;
`unregisterSharedKey` drops the key and the queue.  `processed` records
the envelopes handed to `processSharedEvent`, in call order; the
encrypted event inside an envelope is kept as an opaque blob since only
processing order is at issue. -/

/-- A `sharedEvent` envelope (`SharedEventEnvelope` in the source); the
enclosed encrypted event is opaque here. -/
structure Envelope where
  sourceEntityId : String
  propertyName : String
  event : String
  deriving DecidableEq, Repr

/-- Setting a key of a JS `Map` (used for `queuedEventsRef.current.set`). -/
def setAssoc {β : Type} : List (String × β) → String → β → List (String × β)
  | [], k, v => [(k, v)]
  | (k', v') :: rest, k, v =>
    if k' = k then (k, v) :: rest else (k', v') :: setAssoc rest k v

/-- One client-relevant occurrence: an envelope delivery, a
`registerSharedKey` call (with whether `openSharedKey` succeeded), or an
`unregisterSharedKey` call. -/
inductive ClientAction where
  | sharedEvent (env : Envelope)
  | registerKey (src : String) (opened : Bool)
  | unregisterKey (src : String)
  deriving DecidableEq, Repr

/-- The client's queueing state: cached shared keys (`sharedKeysRef`,
only presence matters here), per-source queues (`queuedEventsRef`), and
the log of envelopes passed to `processSharedEvent`, in call order. -/
structure ClientState where
  keys : List String
  queues : List (String × List Envelope)
  processed : List Envelope
  deriving DecidableEq, Repr

/-- The queue currently held for a source (empty when absent). -/
def queueFor (src : String) (s : ClientState) : List Envelope :=
  (List.lookup src s.queues).getD []

/-- One handler execution. -/
def handleAction (s : ClientState) : ClientAction → ClientState
  | .sharedEvent env =>
    if s.keys.contains env.sourceEntityId then
      { s with processed := s.processed ++ [env] }
    else
      let q := (List.lookup env.sourceEntityId s.queues).getD []
      { s with queues := setAssoc s.queues env.sourceEntityId (q ++ [env]) }
  | .registerKey src opened =>
    if opened then
      { keys := src :: s.keys,
        queues := eraseCode s.queues src,
        processed := s.processed ++ queueFor src s }
    else s
  | .unregisterKey src =>
    { keys := s.keys.filter fun k => k ≠ src,
      queues := eraseCode s.queues src,
      processed := s.processed }

/-- Run a trace of client actions from the initial (empty) state. -/
def runClient (actions : List ClientAction) : ClientState :=
  actions.foldl handleAction ⟨[], [], []⟩

/-- The envelopes delivered for a given source, in arrival order. -/
def arrivalsFor (src : String) (actions : List ClientAction) :
    List Envelope :=
  actions.filterMap fun a =>
    match a with
    | .sharedEvent env =>
      if env.sourceEntityId = src then some env else none
    | _ => none

/-- The processed-envelope log restricted to one source. -/
def processedFor (src : String) (s : ClientState) : List Envelope :=
  s.processed.filter fun env => env.sourceEntityId == src

/-- Whether an action changes the key state for `src`: a successful
registration or an unregistration of that source. -/
def touchesKey (src : String) : ClientAction → Bool
  | .registerKey s opened => s == src && opened
  | .unregisterKey s => s == src
  | _ => false

/-- Queue well-formedness: every queued envelope sits under its own
source's key. -/
def WFQueues (s : ClientState) : Prop :=
  ∀ k env, env ∈ queueFor k s → env.sourceEntityId = k

theorem lookup_setAssoc_self {β : Type} (m : List (String × β))
    (k : String) (v : β) : List.lookup k (setAssoc m k v) = some v := by
  induction m with
  | nil => simp [setAssoc, List.lookup]
  | cons kv rest ih =>
    obtain ⟨k', v'⟩ := kv
    by_cases h : k' = k
    · simp [setAssoc, h, List.lookup]
    · have hbeq : (k == k') = false := by
        simp [beq_eq_false_iff_ne]
        exact fun he => h he.symm
      simp [setAssoc, h, List.lookup, hbeq, ih]

theorem lookup_setAssoc_other {β : Type} (m : List (String × β))
    (k x : String) (v : β) (hx : x ≠ k) :
    List.lookup x (setAssoc m k v) = List.lookup x m := by
  induction m with
  | nil =>
    have hbeq : (x == k) = false := by simp [beq_eq_false_iff_ne, hx]
    simp [setAssoc, List.lookup, hbeq]
  | cons kv rest ih =>
    obtain ⟨k', v'⟩ := kv
    by_cases h : k' = k
    · have hbeq : (x == k) = false := by simp [beq_eq_false_iff_ne, hx]
      have hbeq' : (x == k') = false := by rw [h]; exact hbeq
      simp [setAssoc, h, List.lookup, hbeq, hbeq']
    · by_cases hxk : x = k'
      · simp [setAssoc, h, List.lookup, hxk]
      · have hb : (x == k') = false := by simp [beq_eq_false_iff_ne, hxk]
        simp [setAssoc, h, List.lookup, hb, ih]

theorem lookup_eraseCode_other {β : Type} (m : List (String × β))
    (code x : String) (hx : x ≠ code) :
    List.lookup x (eraseCode m code) = List.lookup x m := by
  induction m with
  | nil => rfl
  | cons kv rest ih =>
    obtain ⟨k, v⟩ := kv
    by_cases h : k = code
    · have hbeq : (x == code) = false := by
        simp [beq_eq_false_iff_ne, hx]
      simp [eraseCode, h, List.lookup, hbeq, ih]
    · by_cases hxk : x = k
      · simp [eraseCode, h, List.lookup, hxk]
      · have hb : (x == k) = false := by simp [beq_eq_false_iff_ne, hxk]
        simp [eraseCode, h, List.lookup, hb, ih]

/-- Running a trace that never (successfully) registers or unregisters
`src`'s key, from a state where the key is absent: the key stays absent,
queue well-formedness is preserved, every envelope from `src` is appended
to `src`'s queue in arrival order (none dropped), and no envelope from
`src` is processed. -/
theorem run_no_key (src : String) (t : List ClientAction) (s : ClientState)
    (hkey : src ∉ s.keys) (hwf : WFQueues s)
    (ht : ∀ a ∈ t, touchesKey src a = false) :
    src ∉ (t.foldl handleAction s).keys ∧
    WFQueues (t.foldl handleAction s) ∧
    queueFor src (t.foldl handleAction s) =
      queueFor src s ++ arrivalsFor src t ∧
    processedFor src (t.foldl handleAction s) = processedFor src s := by
  induction t generalizing s with
  | nil => exact ⟨hkey, hwf, by simp [arrivalsFor], rfl⟩
  | cons a t ih =>
    have hta : touchesKey src a = false := ht a (List.mem_cons_self a t)
    have htt : ∀ a' ∈ t, touchesKey src a' = false := fun a' h' =>
      ht a' (List.mem_cons_of_mem a h')
    simp only [List.foldl_cons]
    cases a with
    | sharedEvent env =>
      by_cases hc : s.keys.contains env.sourceEntityId = true
      · -- key for the envelope's source is cached: processed immediately
        have hmem : env.sourceEntityId ∈ s.keys := List.elem_iff.mp hc
        have hns : env.sourceEntityId ≠ src := fun he => hkey (he ▸ hmem)
        have hstep : handleAction s (.sharedEvent env) =
            { s with processed := s.processed ++ [env] } := by
          simp only [handleAction]
          rw [if_pos hc]
        rw [hstep]
        obtain ⟨k1, k2, k3, k4⟩ :=
          ih { s with processed := s.processed ++ [env] } hkey hwf htt
        have hbeq : (env.sourceEntityId == src) = false := by
          simp [beq_eq_false_iff_ne, hns]
        refine ⟨k1, k2, ?_, ?_⟩
        · rw [k3]
          have harr : arrivalsFor src (.sharedEvent env :: t) =
              arrivalsFor src t := by
            simp [arrivalsFor, hns]
          rw [harr]
          rfl
        · rw [k4]
          simp [processedFor, List.filter_append, hbeq]
      · -- no key: the envelope is queued under its source
        have hstep : handleAction s (.sharedEvent env) = ({ s with queues := setAssoc s.queues env.sourceEntityId ((List.lookup env.sourceEntityId s.queues).getD [] ++ [env]) } : ClientState) := by
          simp only [handleAction]
          rw [if_neg hc]
        rw [hstep]
        set s' : ClientState := ({ s with queues := setAssoc s.queues env.sourceEntityId ((List.lookup env.sourceEntityId s.queues).getD [] ++ [env]) } : ClientState) with hs'
        have hwf' : WFQueues s' := by
          intro k e he
          by_cases hk : k = env.sourceEntityId
          · subst hk
            simp only [queueFor, hs'] at he
            simp only [lookup_setAssoc_self] at he
            simp only [Option.getD_some] at he
            rcases List.mem_append.mp he with h | h
            · exact hwf env.sourceEntityId e (by simpa [queueFor] using h)
            · simp at h
              rw [h]
          · simp only [queueFor, hs'] at he
            simp only [lookup_setAssoc_other _ _ _ _ hk] at he
            exact hwf k e he
        obtain ⟨k1, k2, k3, k4⟩ := ih s' hkey hwf' htt
        refine ⟨k1, k2, ?_, ?_⟩
        · rw [k3]
          by_cases hek : env.sourceEntityId = src
          · have hq : queueFor src s' = queueFor src s ++ [env] := by
              simp only [queueFor, hs']
              subst hek
              simp [lookup_setAssoc_self, queueFor]
            have harr : arrivalsFor src (.sharedEvent env :: t) =
                env :: arrivalsFor src t := by
              simp [arrivalsFor, hek]
            rw [hq, harr, List.append_assoc]
            rfl
          · have hq : queueFor src s' = queueFor src s := by
              simp only [queueFor, hs']
              simp only [lookup_setAssoc_other _ _ _ _
                (fun he => hek he.symm)]
            have harr : arrivalsFor src (.sharedEvent env :: t) =
                arrivalsFor src t := by
              simp [arrivalsFor, hek]
            rw [hq, harr]
        · rw [k4, hs']
          rfl
    | registerKey s2 opened =>
      cases opened with
      | false =>
        have hstep : handleAction s (.registerKey s2 false) = s := by
          simp [handleAction]
        rw [hstep]
        obtain ⟨k1, k2, k3, k4⟩ := ih s hkey hwf htt
        refine ⟨k1, k2, ?_, k4⟩
        rw [k3]
        have harr : arrivalsFor src (.registerKey s2 false :: t) =
            arrivalsFor src t := by
          simp [arrivalsFor]
        rw [harr]
      | true =>
        have hne : s2 ≠ src := by
          intro he
          rw [he] at hta
          simp [touchesKey] at hta
        have hstep : handleAction s (.registerKey s2 true) =
            { keys := s2 :: s.keys,
              queues := eraseCode s.queues s2,
              processed := s.processed ++ queueFor s2 s } := by
          simp [handleAction]
        rw [hstep]
        set s' : ClientState := ({ keys := s2 :: s.keys, queues := eraseCode s.queues s2, processed := s.processed ++ queueFor s2 s } : ClientState) with hs'
        have hkey' : src ∉ s'.keys := by
          rw [hs']
          intro hmem
          rcases List.mem_cons.mp hmem with h | h
          · exact hne h.symm
          · exact hkey h
        have hwf' : WFQueues s' := by
          intro k e he
          by_cases hk : k = s2
          · subst hk
            simp only [queueFor, hs'] at he
            simp only [lookup_eraseCode_self] at he
            simp at he
          · simp only [queueFor, hs'] at he
            simp only [lookup_eraseCode_other _ _ _ hk] at he
            exact hwf k e he
        obtain ⟨k1, k2, k3, k4⟩ := ih s' hkey' hwf' htt
        have hq : queueFor src s' = queueFor src s := by
          simp only [queueFor, hs']
          simp only [lookup_eraseCode_other _ _ _ (fun he => hne he.symm)]
        have hp : processedFor src s' = processedFor src s := by
          simp only [processedFor, hs']
          simp only [List.filter_append]
          have hqnil : (queueFor s2 s).filter
              (fun env => env.sourceEntityId == src) = [] := by
            rw [List.filter_eq_nil_iff]
            intro e he
            have := hwf s2 e he
            simp [this, hne]
          rw [hqnil, List.append_nil]
        refine ⟨k1, k2, ?_, ?_⟩
        · rw [k3, hq]
          have harr : arrivalsFor src (.registerKey s2 true :: t) =
              arrivalsFor src t := by
            simp [arrivalsFor]
          rw [harr]
        · rw [k4, hp]
    | unregisterKey s2 =>
      have hne : s2 ≠ src := by
        intro he
        rw [he] at hta
        simp [touchesKey] at hta
      have hstep : handleAction s (.unregisterKey s2) =
          { keys := s.keys.filter fun k => k ≠ s2,
            queues := eraseCode s.queues s2,
            processed := s.processed } := by
        simp [handleAction]
      rw [hstep]
      set s' : ClientState := ({ keys := s.keys.filter (fun k => k ≠ s2), queues := eraseCode s.queues s2, processed := s.processed } : ClientState) with hs'
      have hkey' : src ∉ s'.keys := by
        rw [hs']
        intro hmem
        exact hkey (List.mem_of_mem_filter hmem)
      have hwf' : WFQueues s' := by
        intro k e he
        by_cases hk : k = s2
        · subst hk
          simp only [queueFor, hs'] at he
          simp only [lookup_eraseCode_self] at he
          simp at he
        · simp only [queueFor, hs'] at he
          simp only [lookup_eraseCode_other _ _ _ hk] at he
          exact hwf k e he
      obtain ⟨k1, k2, k3, k4⟩ := ih s' hkey' hwf' htt
      have hq : queueFor src s' = queueFor src s := by
        simp only [queueFor, hs']
        simp only [lookup_eraseCode_other _ _ _ (fun he => hne he.symm)]
      refine ⟨k1, k2, ?_, ?_⟩
      · rw [k3, hq]
        have harr : arrivalsFor src (.unregisterKey s2 :: t) =
            arrivalsFor src t := by
          simp [arrivalsFor]
        rw [harr]
      · rw [k4]
        rfl

/-- Running a trace that never registers or unregisters `src`'s key, from
a state where the key is cached: the key stays cached and every envelope
from `src` is processed immediately, so the processed log for `src` is
extended exactly by `src`'s arrivals, in arrival order. -/
theorem run_with_key (src : String) (t : List ClientAction)
    (s : ClientState) (hkey : src ∈ s.keys) (hwf : WFQueues s)
    (ht : ∀ a ∈ t, touchesKey src a = false) :
    src ∈ (t.foldl handleAction s).keys ∧
    WFQueues (t.foldl handleAction s) ∧
    processedFor src (t.foldl handleAction s) =
      processedFor src s ++ arrivalsFor src t := by
  induction t generalizing s with
  | nil => exact ⟨hkey, hwf, by simp [arrivalsFor]⟩
  | cons a t ih =>
    have hta : touchesKey src a = false := ht a (List.mem_cons_self a t)
    have htt : ∀ a' ∈ t, touchesKey src a' = false := fun a' h' =>
      ht a' (List.mem_cons_of_mem a h')
    simp only [List.foldl_cons]
    cases a with
    | sharedEvent env =>
      by_cases hc : s.keys.contains env.sourceEntityId = true
      · have hstep : handleAction s (.sharedEvent env) =
            { s with processed := s.processed ++ [env] } := by
          simp only [handleAction]
          rw [if_pos hc]
        rw [hstep]
        obtain ⟨k1, k2, k3⟩ :=
          ih { s with processed := s.processed ++ [env] } hkey hwf htt
        refine ⟨k1, k2, ?_⟩
        rw [k3]
        by_cases hek : env.sourceEntityId = src
        · have harr : arrivalsFor src (.sharedEvent env :: t) =
              env :: arrivalsFor src t := by
            simp [arrivalsFor, hek]
          have hp : processedFor src
              { s with processed := s.processed ++ [env] } =
              processedFor src s ++ [env] := by
            simp [processedFor, List.filter_append, hek]
          rw [harr, hp, List.append_assoc]
          rfl
        · have harr : arrivalsFor src (.sharedEvent env :: t) =
              arrivalsFor src t := by
            simp [arrivalsFor, hek]
          have hbeq : (env.sourceEntityId == src) = false := by
            simp [beq_eq_false_iff_ne, hek]
          have hp : processedFor src
              { s with processed := s.processed ++ [env] } =
              processedFor src s := by
            simp [processedFor, List.filter_append, hbeq]
          rw [harr, hp]
      · have hns : env.sourceEntityId ≠ src := by
          intro he
          rw [he] at hc
          exact hc (List.elem_iff.mpr hkey)
        have hstep : handleAction s (.sharedEvent env) = ({ s with queues := setAssoc s.queues env.sourceEntityId ((List.lookup env.sourceEntityId s.queues).getD [] ++ [env]) } : ClientState) := by
          simp only [handleAction]
          rw [if_neg hc]
        rw [hstep]
        set s' : ClientState := ({ s with queues := setAssoc s.queues env.sourceEntityId ((List.lookup env.sourceEntityId s.queues).getD [] ++ [env]) } : ClientState) with hs'
        have hwf' : WFQueues s' := by
          intro k e he
          by_cases hk : k = env.sourceEntityId
          · subst hk
            simp only [queueFor, hs'] at he
            simp only [lookup_setAssoc_self] at he
            simp only [Option.getD_some] at he
            rcases List.mem_append.mp he with h | h
            · exact hwf env.sourceEntityId e (by simpa [queueFor] using h)
            · simp at h
              rw [h]
          · simp only [queueFor, hs'] at he
            simp only [lookup_setAssoc_other _ _ _ _ hk] at he
            exact hwf k e he
        obtain ⟨k1, k2, k3⟩ := ih s' hkey hwf' htt
        refine ⟨k1, k2, ?_⟩
        rw [k3]
        have harr : arrivalsFor src (.sharedEvent env :: t) =
            arrivalsFor src t := by
          simp [arrivalsFor, hns]
        rw [harr, hs']
        rfl
    | registerKey s2 opened =>
      cases opened with
      | false =>
        have hstep : handleAction s (.registerKey s2 false) = s := by
          simp [handleAction]
        rw [hstep]
        obtain ⟨k1, k2, k3⟩ := ih s hkey hwf htt
        refine ⟨k1, k2, ?_⟩
        rw [k3]
        have harr : arrivalsFor src (.registerKey s2 false :: t) =
            arrivalsFor src t := by
          simp [arrivalsFor]
        rw [harr]
      | true =>
        have hne : s2 ≠ src := by
          intro he
          rw [he] at hta
          simp [touchesKey] at hta
        have hstep : handleAction s (.registerKey s2 true) =
            { keys := s2 :: s.keys,
              queues := eraseCode s.queues s2,
              processed := s.processed ++ queueFor s2 s } := by
          simp [handleAction]
        rw [hstep]
        set s' : ClientState := ({ keys := s2 :: s.keys, queues := eraseCode s.queues s2, processed := s.processed ++ queueFor s2 s } : ClientState) with hs'
        have hkey' : src ∈ s'.keys := List.mem_cons_of_mem s2 hkey
        have hwf' : WFQueues s' := by
          intro k e he
          by_cases hk : k = s2
          · subst hk
            simp only [queueFor, hs'] at he
            simp only [lookup_eraseCode_self] at he
            simp at he
          · simp only [queueFor, hs'] at he
            simp only [lookup_eraseCode_other _ _ _ hk] at he
            exact hwf k e he
        obtain ⟨k1, k2, k3⟩ := ih s' hkey' hwf' htt
        have hp : processedFor src s' = processedFor src s := by
          simp only [processedFor, hs']
          simp only [List.filter_append]
          have hqnil : (queueFor s2 s).filter
              (fun env => env.sourceEntityId == src) = [] := by
            rw [List.filter_eq_nil_iff]
            intro e he
            have := hwf s2 e he
            simp [this, hne]
          rw [hqnil, List.append_nil]
        refine ⟨k1, k2, ?_⟩
        rw [k3, hp]
        have harr : arrivalsFor src (.registerKey s2 true :: t) =
            arrivalsFor src t := by
          simp [arrivalsFor]
        rw [harr]
    | unregisterKey s2 =>
      have hne : s2 ≠ src := by
        intro he
        rw [he] at hta
        simp [touchesKey] at hta
      have hstep : handleAction s (.unregisterKey s2) =
          { keys := s.keys.filter fun k => k ≠ s2,
            queues := eraseCode s.queues s2,
            processed := s.processed } := by
        simp [handleAction]
      rw [hstep]
      set s' : ClientState := ({ keys := s.keys.filter (fun k => k ≠ s2), queues := eraseCode s.queues s2, processed := s.processed } : ClientState) with hs'
      have hkey' : src ∈ s'.keys := by
        rw [hs']
        refine List.mem_filter.mpr ⟨hkey, ?_⟩
        simp [hne]
        exact fun he => hne he.symm
      have hwf' : WFQueues s' := by
        intro k e he
        by_cases hk : k = s2
        · subst hk
          simp only [queueFor, hs'] at he
          simp only [lookup_eraseCode_self] at he
          simp at he
        · simp only [queueFor, hs'] at he
          simp only [lookup_eraseCode_other _ _ _ hk] at he
          exact hwf k e he
      obtain ⟨k1, k2, k3⟩ := ih s' hkey' hwf' htt
      refine ⟨k1, k2, ?_⟩
      rw [k3]
      have harr : arrivalsFor src (.unregisterKey s2 :: t) =
          arrivalsFor src t := by
        simp [arrivalsFor]
      rw [harr, hs']
      rfl

/-- Claim C9 (confirmed, with the socket and effect handlers modelled as
run-to-completion executions): for a source whose shared key is not yet
registered, every arriving `sharedEvent` envelope is queued per
`sourceEntityId` in arrival order and none is processed or dropped; once
`registerSharedKey` succeeds for that source, all queued envelopes are
drained and processed in arrival order, followed — in order — by every
subsequently received live envelope for the same source. -/
theorem claim_C9 (src : String) (t1 t2 : List ClientAction)
    (h1 : ∀ a ∈ t1, touchesKey src a = false)
    (h2 : ∀ a ∈ t2, touchesKey src a = false) :
    queueFor src (runClient t1) = arrivalsFor src t1 ∧
    processedFor src (runClient t1) = [] ∧
    processedFor src
        (runClient (t1 ++ ClientAction.registerKey src true :: t2)) =
      arrivalsFor src t1 ++ arrivalsFor src t2 := by
  have hinitkey : src ∉ (⟨[], [], []⟩ : ClientState).keys := by simp
  have hinitwf : WFQueues ⟨[], [], []⟩ := by
    intro k env h
    simp [queueFor, List.lookup] at h
  obtain ⟨hk1, hwf1, hq1, hp1⟩ :=
    run_no_key src t1 ⟨[], [], []⟩ hinitkey hinitwf h1
  have hqinit : queueFor src (⟨[], [], []⟩ : ClientState) = [] := rfl
  have hpinit : processedFor src (⟨[], [], []⟩ : ClientState) = [] := rfl
  refine ⟨?_, ?_, ?_⟩
  · rw [runClient, hq1, hqinit]
    rfl
  · rw [runClient, hp1, hpinit]
  · rw [runClient, List.foldl_append, List.foldl_cons]
    set s1 : ClientState :=
      List.foldl handleAction ⟨[], [], []⟩ t1 with hs1
    have hstep : handleAction s1 (.registerKey src true) =
        { keys := src :: s1.keys,
          queues := eraseCode s1.queues src,
          processed := s1.processed ++ queueFor src s1 } := by
      simp [handleAction]
    rw [hstep]
    set s2 : ClientState := ({ keys := src :: s1.keys, queues := eraseCode s1.queues src, processed := s1.processed ++ queueFor src s1 } : ClientState) with hs2
    have hkey2 : src ∈ s2.keys := List.mem_cons_self src s1.keys
    have hwf2 : WFQueues s2 := by
      intro k e he
      by_cases hk : k = src
      · subst hk
        simp only [queueFor, hs2] at he
        simp only [lookup_eraseCode_self] at he
        simp at he
      · simp only [queueFor, hs2] at he
        simp only [lookup_eraseCode_other _ _ _ hk] at he
        exact hwf1 k e he
    have hp2 : processedFor src s2 = arrivalsFor src t1 := by
      simp only [processedFor, hs2]
      simp only [List.filter_append]
      have hfull : (queueFor src s1).filter
          (fun env => env.sourceEntityId == src) = queueFor src s1 := by
        rw [List.filter_eq_self]
        intro e he
        have := hwf1 src e he
        simp [this]
      rw [hfull]
      have : s1.processed.filter (fun env => env.sourceEntityId == src) =
          processedFor src s1 := rfl
      rw [this, hp1, hpinit, List.nil_append, hq1, hqinit, List.nil_append]
    obtain ⟨g1, g2, g3⟩ := run_with_key src t2 s2 hkey2 hwf2 h2
    rw [g3, hp2]

theorem claim_C9_witness :
    queueFor "S" (runClient
      [.sharedEvent ⟨"S", "p", "x1"⟩, .sharedEvent ⟨"T", "p", "y"⟩,
       .sharedEvent ⟨"S", "p", "x2"⟩]) =
      arrivalsFor "S"
        [.sharedEvent ⟨"S", "p", "x1"⟩, .sharedEvent ⟨"T", "p", "y"⟩,
         .sharedEvent ⟨"S", "p", "x2"⟩] ∧
    processedFor "S" (runClient
      [.sharedEvent ⟨"S", "p", "x1"⟩, .sharedEvent ⟨"T", "p", "y"⟩,
       .sharedEvent ⟨"S", "p", "x2"⟩]) = [] ∧
    processedFor "S" (runClient
      ([.sharedEvent ⟨"S", "p", "x1"⟩, .sharedEvent ⟨"T", "p", "y"⟩,
        .sharedEvent ⟨"S", "p", "x2"⟩] ++
       ClientAction.registerKey "S" true ::
        [.sharedEvent ⟨"S", "p", "x3"⟩])) =
      arrivalsFor "S"
        [.sharedEvent ⟨"S", "p", "x1"⟩, .sharedEvent ⟨"T", "p", "y"⟩,
         .sharedEvent ⟨"S", "p", "x2"⟩] ++
      arrivalsFor "S" [.sharedEvent ⟨"S", "p", "x3"⟩] :=
  claim_C9 "S"
    [.sharedEvent ⟨"S", "p", "x1"⟩, .sharedEvent ⟨"T", "p", "y"⟩,
     .sharedEvent ⟨"S", "p", "x2"⟩]
    [.sharedEvent ⟨"S", "p", "x3"⟩] (by decide) (by decide)

/-! ## The event codec (crypto lib `encryptJson` / `decryptJson`)

`encryptJson(rawPrivateKey, data)` derives the content key
(`crypto_generichash` of the private key under the fixed label
`"truetrace-entity-content"`), serializes `data` with `JSON.stringify`,
UTF-8-encodes it, seals it with `crypto_secretbox_easy` under a fresh
random nonce, and base64url-encodes nonce and ciphertext into the wire
payload; `decryptJson` inverts each step.  The repository code is this
composition; the leaf operations are external (libsodium and JS
built-ins) and are modelled concretely and executably, faithful to their
interfaces: base64url without padding, UTF-8, JSON string escaping, and
an authenticated cipher in libsodium's `mac ‖ ciphertext` layout whose
open operation verifies the tag and inverts the keystream.  Bytes are
naturals below 256; JS strings are lists of Unicode code points. -/

/-- The base64url alphabet (`URLSAFE_NO_PADDING` variant), as character
codes. -/
def b64Alphabet : List Nat :=
  ("ABCDEFGHIJKLMNOPQRSTUVWXYZabcdefghijklmnopqrstuvwxyz0123456789-_".toList).map
    Char.toNat

/-- The character code for a 6-bit group. -/
def b64Char (n : Nat) : Nat := b64Alphabet.getD n 0

/-- The 6-bit group for a character code, `none` for a non-alphabet
character. -/
def b64Val (c : Nat) : Option Nat :=
  let i := b64Alphabet.indexOf c
  if i < 64 then some i else none

theorem b64Val_b64Char_fin : ∀ n : Fin 64, b64Val (b64Char n.val) = some n.val := by
  decide

theorem b64Val_b64Char (n : Nat) (h : n < 64) :
    b64Val (b64Char n) = some n :=
  b64Val_b64Char_fin ⟨n, h⟩

/-- `sodium.to_base64` (URLSAFE_NO_PADDING): 3 bytes → 4 characters,
with the unpadded 2- and 3-character tails. -/
def b64Encode : List Nat → List Nat
  | [] => []
  | [b1] => [b64Char (b1 / 4), b64Char (b1 % 4 * 16)]
  | [b1, b2] =>
    [b64Char (b1 / 4), b64Char (b1 % 4 * 16 + b2 / 16), b64Char (b2 % 16 * 4)]
  | b1 :: b2 :: b3 :: rest =>
    b64Char (b1 / 4) :: b64Char (b1 % 4 * 16 + b2 / 16) ::
      b64Char (b2 % 16 * 4 + b3 / 64) :: b64Char (b3 % 64) :: b64Encode rest

/-- `sodium.from_base64` (URLSAFE_NO_PADDING): the inverse grouping;
fails on non-alphabet characters or an impossible length. -/
def b64Decode : List Nat → Option (List Nat)
  | [] => some []
  | [c1, c2] => do
    let v1 ← b64Val c1
    let v2 ← b64Val c2
    pure [v1 * 4 + v2 / 16]
  | [c1, c2, c3] => do
    let v1 ← b64Val c1
    let v2 ← b64Val c2
    let v3 ← b64Val c3
    pure [v1 * 4 + v2 / 16, v2 % 16 * 16 + v3 / 4]
  | c1 :: c2 :: c3 :: c4 :: rest => do
    let v1 ← b64Val c1
    let v2 ← b64Val c2
    let v3 ← b64Val c3
    let v4 ← b64Val c4
    let tail ← b64Decode rest
    pure ((v1 * 4 + v2 / 16) :: (v2 % 16 * 16 + v3 / 4) ::
      (v3 % 4 * 64 + v4) :: tail)
  | [_] => none

theorem b64_roundtrip :
    ∀ (bs : List Nat), (∀ b ∈ bs, b < 256) →
      b64Decode (b64Encode bs) = some bs
  | [], _ => by simp [b64Encode, b64Decode]
  | [b1], h => by
    have hb1 : b1 < 256 := h b1 (by simp)
    simp only [b64Encode, b64Decode,
      b64Val_b64Char (b1 / 4) (by omega),
      b64Val_b64Char (b1 % 4 * 16) (by omega)]
    simp only [Option.bind_eq_bind, Option.some_bind, Option.pure_def,
      Option.some.injEq, List.cons.injEq, and_true]
    omega
  | [b1, b2], h => by
    have hb1 : b1 < 256 := h b1 (by simp)
    have hb2 : b2 < 256 := h b2 (by simp)
    simp only [b64Encode, b64Decode,
      b64Val_b64Char (b1 / 4) (by omega),
      b64Val_b64Char (b1 % 4 * 16 + b2 / 16) (by omega),
      b64Val_b64Char (b2 % 16 * 4) (by omega)]
    simp only [Option.bind_eq_bind, Option.some_bind, Option.pure_def,
      Option.some.injEq, List.cons.injEq, and_true]
    omega
  | b1 :: b2 :: b3 :: rest, h => by
    have hb1 : b1 < 256 := h b1 (by simp)
    have hb2 : b2 < 256 := h b2 (by simp)
    have hb3 : b3 < 256 := h b3 (by simp)
    have hrest : ∀ b ∈ rest, b < 256 := fun b hb =>
      h b (by simp [hb])
    have ih := b64_roundtrip rest hrest
    simp only [b64Encode, b64Decode,
      b64Val_b64Char (b1 / 4) (by omega),
      b64Val_b64Char (b1 % 4 * 16 + b2 / 16) (by omega),
      b64Val_b64Char (b2 % 16 * 4 + b3 / 64) (by omega),
      b64Val_b64Char (b3 % 64) (by omega), ih]
    simp only [Option.bind_eq_bind, Option.some_bind, Option.pure_def,
      Option.some.injEq, List.cons.injEq, and_self, and_true]
    omega

/-- UTF-8 encoding of one Unicode code point (`TextEncoder`). -/
def utf8EncodeChar (c : Nat) : List Nat :=
  if c < 0x80 then [c]
  else if c < 0x800 then [0xC0 + c / 64, 0x80 + c % 64]
  else if c < 0x10000 then
    [0xE0 + c / 4096, 0x80 + c / 64 % 64, 0x80 + c % 64]
  else
    [0xF0 + c / 262144, 0x80 + c / 4096 % 64, 0x80 + c / 64 % 64,
      0x80 + c % 64]

/-- UTF-8 encoding of a string of code points. -/
def utf8Encode : List Nat → List Nat
  | [] => []
  | c :: rest => utf8EncodeChar c ++ utf8Encode rest

/-- Decoding a 2-byte UTF-8 sequence after its lead byte `b`. -/
def decodeCont1 (b : Nat) : List Nat → Option (Nat × List Nat)
  | b2 :: r =>
    if 0x80 ≤ b2 ∧ b2 < 0xC0 then
      some ((b - 0xC0) * 64 + (b2 - 0x80), r)
    else none
  | [] => none

/-- Decoding a 3-byte UTF-8 sequence after its lead byte `b`. -/
def decodeCont2 (b : Nat) : List Nat → Option (Nat × List Nat)
  | b2 :: b3 :: r =>
    if (0x80 ≤ b2 ∧ b2 < 0xC0) ∧ (0x80 ≤ b3 ∧ b3 < 0xC0) then
      some ((b - 0xE0) * 4096 + (b2 - 0x80) * 64 + (b3 - 0x80), r)
    else none
  | _ => none

/-- Decoding a 4-byte UTF-8 sequence after its lead byte `b`. -/
def decodeCont3 (b : Nat) : List Nat → Option (Nat × List Nat)
  | b2 :: b3 :: b4 :: r =>
    if (0x80 ≤ b2 ∧ b2 < 0xC0) ∧ (0x80 ≤ b3 ∧ b3 < 0xC0) ∧
        (0x80 ≤ b4 ∧ b4 < 0xC0) then
      some ((b - 0xF0) * 262144 + (b2 - 0x80) * 4096 +
        (b3 - 0x80) * 64 + (b4 - 0x80), r)
    else none
  | _ => none

/-- Decoding one UTF-8 code point: lead-byte dispatch. -/
def utf8DecodeOne : List Nat → Option (Nat × List Nat)
  | [] => none
  | b :: rest =>
    if b < 0x80 then some (b, rest)
    else if b < 0xC0 then none
    else if b < 0xE0 then decodeCont1 b rest
    else if b < 0xF0 then decodeCont2 b rest
    else decodeCont3 b rest

/-- Fuelled decoding loop; one unit of fuel per decoded code point. -/
def utf8DecodeLoop : Nat → List Nat → Option (List Nat)
  | _, [] => some []
  | 0, _ :: _ => none
  | fuel + 1, b :: rest =>
    match utf8DecodeOne (b :: rest) with
    | none => none
    | some (c, r) => (utf8DecodeLoop fuel r).map (c :: ·)

/-- UTF-8 decoding (`TextDecoder`); the byte count bounds the number of
code points, so it is enough fuel. -/
def utf8Decode (l : List Nat) : Option (List Nat) :=
  utf8DecodeLoop l.length l

theorem utf8EncodeChar_lt (c : Nat) (hc : c < 0x110000) :
    ∀ b ∈ utf8EncodeChar c, b < 256 := by
  intro b hb
  unfold utf8EncodeChar at hb
  split_ifs at hb <;> simp at hb <;> omega

theorem utf8Encode_lt (s : List Nat) (hs : ∀ c ∈ s, c < 0x110000) :
    ∀ b ∈ utf8Encode s, b < 256 := by
  induction s with
  | nil => intro b hb; simp [utf8Encode] at hb
  | cons c rest ih =>
    intro b hb
    rcases List.mem_append.mp hb with h | h
    · exact utf8EncodeChar_lt c (hs c (by simp)) b h
    · exact ih (fun c' hc' => hs c' (by simp [hc'])) b h

theorem utf8EncodeChar_ne_nil (c : Nat) : utf8EncodeChar c ≠ [] := by
  unfold utf8EncodeChar
  split_ifs <;> simp

theorem length_le_utf8Encode (s : List Nat) :
    s.length ≤ (utf8Encode s).length := by
  induction s with
  | nil => simp [utf8Encode]
  | cons c rest ih =>
    have h1 : 1 ≤ (utf8EncodeChar c).length := by
      cases hc : utf8EncodeChar c with
      | nil => exact absurd hc (utf8EncodeChar_ne_nil c)
      | cons x xs => simp
    show (c :: rest).length ≤ (utf8EncodeChar c ++ utf8Encode rest).length
    simp only [List.length_cons, List.length_append]
    omega

theorem utf8DecodeOne_encodeChar (c : Nat) (hc : c < 0x110000)
    (rest : List Nat) :
    utf8DecodeOne (utf8EncodeChar c ++ rest) = some (c, rest) := by
  by_cases h1 : c < 0x80
  · have henc : utf8EncodeChar c = [c] := by
      unfold utf8EncodeChar
      rw [if_pos h1]
    rw [henc]
    simp only [List.cons_append, List.nil_append, utf8DecodeOne]
    rw [if_pos h1]
  · by_cases h2 : c < 0x800
    · have henc : utf8EncodeChar c = [0xC0 + c / 64, 0x80 + c % 64] := by
        unfold utf8EncodeChar
        rw [if_neg h1, if_pos h2]
      rw [henc]
      simp only [List.cons_append, List.nil_append, utf8DecodeOne]
      rw [if_neg (by omega), if_neg (by omega), if_pos (by omega)]
      simp only [decodeCont1]
      rw [if_pos (by omega)]
      have harith : (0xC0 + c / 64 - 0xC0) * 64 + (0x80 + c % 64 - 0x80) = c := by
        omega
      rw [harith]
    · by_cases h3 : c < 0x10000
      · have henc : utf8EncodeChar c =
            [0xE0 + c / 4096, 0x80 + c / 64 % 64, 0x80 + c % 64] := by
          unfold utf8EncodeChar
          rw [if_neg h1, if_neg h2, if_pos h3]
        rw [henc]
        simp only [List.cons_append, List.nil_append, utf8DecodeOne]
        rw [if_neg (by omega), if_neg (by omega), if_neg (by omega),
          if_pos (by omega)]
        simp only [decodeCont2]
        rw [if_pos (by omega)]
        have harith : (0xE0 + c / 4096 - 0xE0) * 4096 +
            (0x80 + c / 64 % 64 - 0x80) * 64 + (0x80 + c % 64 - 0x80) = c := by
          omega
        rw [harith]
      · have henc : utf8EncodeChar c =
            [0xF0 + c / 262144, 0x80 + c / 4096 % 64, 0x80 + c / 64 % 64,
              0x80 + c % 64] := by
          unfold utf8EncodeChar
          rw [if_neg h1, if_neg h2, if_neg h3]
        rw [henc]
        simp only [List.cons_append, List.nil_append, utf8DecodeOne]
        rw [if_neg (by omega), if_neg (by omega), if_neg (by omega),
          if_neg (by omega)]
        simp only [decodeCont3]
        rw [if_pos (by omega)]
        have harith : (0xF0 + c / 262144 - 0xF0) * 262144 +
            (0x80 + c / 4096 % 64 - 0x80) * 4096 +
            (0x80 + c / 64 % 64 - 0x80) * 64 + (0x80 + c % 64 - 0x80) = c := by
          omega
        rw [harith]

theorem utf8DecodeLoop_encode (s : List Nat) :
    ∀ fuel, (∀ c ∈ s, c < 0x110000) → s.length ≤ fuel →
      utf8DecodeLoop fuel (utf8Encode s) = some s := by
  induction s with
  | nil =>
    intro fuel _ _
    cases fuel <;> rfl
  | cons c s' ih =>
    intro fuel hs hlen
    have hc : c < 0x110000 := hs c (by simp)
    have hs' : ∀ c' ∈ s', c' < 0x110000 := fun c' h' => hs c' (by simp [h'])
    obtain ⟨f, rfl⟩ : ∃ f, fuel = f + 1 := by
      cases fuel with
      | zero => simp at hlen
      | succ f => exact ⟨f, rfl⟩
    have hlen' : s'.length ≤ f := by
      simp only [List.length_cons] at hlen
      omega
    have hbytes : utf8Encode (c :: s') = utf8EncodeChar c ++ utf8Encode s' :=
      rfl
    cases henc : utf8EncodeChar c with
    | nil => exact absurd henc (utf8EncodeChar_ne_nil c)
    | cons b tb =>
      have hcons : utf8Encode (c :: s') = b :: (tb ++ utf8Encode s') := by
        rw [hbytes, henc]
        simp
      rw [hcons]
      have hone : utf8DecodeOne (b :: (tb ++ utf8Encode s')) =
          some (c, utf8Encode s') := by
        have := utf8DecodeOne_encodeChar c hc (utf8Encode s')
        rw [henc] at this
        simpa using this
      simp only [utf8DecodeLoop, hone]
      rw [ih f hs' hlen']
      rfl

theorem utf8_roundtrip (s : List Nat) (hs : ∀ c ∈ s, c < 0x110000) :
    utf8Decode (utf8Encode s) = some s :=
  utf8DecodeLoop_encode s (utf8Encode s).length hs
    (length_le_utf8Encode s)

/-! ### The libsodium primitives, modelled

`crypto_generichash` is modelled by a concrete deterministic digest
(determinism is the only property `deriveEntityContentKey` relies on);
`crypto_secretbox_easy` / `crypto_secretbox_open_easy` by a concrete
authenticated stream cipher in libsodium's `tag ‖ ciphertext` layout:
encryption adds a key/nonce-derived keystream byte-wise mod 256 and
prepends a 16-byte tag over key, nonce and ciphertext; open recomputes
and checks the tag, then inverts the keystream. -/

/-- Model of `crypto_generichash(outLen, message, key)`. -/
def genericHash (outLen : Nat) (msg key : List Nat) : List Nat :=
  (List.range outLen).map fun i =>
    (msg.foldl (fun a b => a * 31 + b)
      (key.foldl (fun a b => a * 37 + b) 7) + i) % 256

/-- The fixed domain-separation label `"truetrace-entity-content"`. -/
def contentKeyLabel : List Nat :=
  ("truetrace-entity-content".toList).map Char.toNat

/-- `deriveEntityContentKey`: keyed hash of the private key under the
fixed label, at secretbox key length (32). -/
def deriveEntityContentKey (rawPrivateKey : List Nat) : List Nat :=
  genericHash 32 rawPrivateKey contentKeyLabel

/-- One keystream byte of the modelled cipher. -/
def streamByte (key nonce : List Nat) (i : Nat) : Nat :=
  (key.foldl (fun a b => a * 33 + b) 5 +
    nonce.foldl (fun a b => a * 17 + b) 3 * 131 + i * 31) % 256

/-- Byte-wise keystream addition mod 256, starting at position `i`. -/
def streamEncrypt (key nonce : List Nat) : Nat → List Nat → List Nat
  | _, [] => []
  | i, b :: rest =>
    (b + streamByte key nonce i) % 256 :: streamEncrypt key nonce (i + 1) rest

/-- Byte-wise keystream subtraction mod 256. -/
def streamDecrypt (key nonce : List Nat) : Nat → List Nat → List Nat
  | _, [] => []
  | i, b :: rest =>
    (b + 256 - streamByte key nonce i) % 256 ::
      streamDecrypt key nonce (i + 1) rest

/-- The 16-byte authentication tag over key, nonce and ciphertext. -/
def macTag (key nonce ct : List Nat) : List Nat :=
  (List.range 16).map fun i =>
    ((key ++ nonce ++ ct).foldl (fun a b => a * 131 + b) 17 + i) % 256

/-- Model of `crypto_secretbox_easy`: `tag ‖ ciphertext`. -/
def secretboxEasy (m nonce key : List Nat) : List Nat :=
  let ct := streamEncrypt key nonce 0 m
  macTag key nonce ct ++ ct

/-- Model of `crypto_secretbox_open_easy`: check the tag, then invert the
keystream; fails (the `AuthenticationFailure` of the spec) on a tag
mismatch. -/
def secretboxOpenEasy (c nonce key : List Nat) : Option (List Nat) :=
  if c.length < 16 then none
  else
    let tag := c.take 16
    let ct := c.drop 16
    if tag = macTag key nonce ct then some (streamDecrypt key nonce 0 ct)
    else none

theorem streamDecrypt_streamEncrypt (key nonce : List Nat) :
    ∀ (i : Nat) (m : List Nat), (∀ b ∈ m, b < 256) →
      streamDecrypt key nonce i (streamEncrypt key nonce i m) = m := by
  intro i m
  induction m generalizing i with
  | nil => intro _; rfl
  | cons b rest ih =>
    intro h
    have hb : b < 256 := h b (by simp)
    have hrest : ∀ b' ∈ rest, b' < 256 := fun b' h' => h b' (by simp [h'])
    have hp : streamByte key nonce i < 256 := Nat.mod_lt _ (by omega)
    simp only [streamEncrypt, streamDecrypt, ih (i + 1) hrest]
    congr 1
    omega

theorem length_macTag (key nonce ct : List Nat) :
    (macTag key nonce ct).length = 16 := by
  simp [macTag]

theorem streamEncrypt_lt (key nonce : List Nat) :
    ∀ (i : Nat) (m : List Nat), ∀ b ∈ streamEncrypt key nonce i m, b < 256 := by
  intro i m
  induction m generalizing i with
  | nil => intro b hb; simp [streamEncrypt] at hb
  | cons x rest ih =>
    intro b hb
    simp only [streamEncrypt, List.mem_cons] at hb
    rcases hb with hb | hb
    · rw [hb]; exact Nat.mod_lt _ (by omega)
    · exact ih (i + 1) b hb

theorem macTag_lt (key nonce ct : List Nat) :
    ∀ b ∈ macTag key nonce ct, b < 256 := by
  intro b hb
  simp only [macTag, List.mem_map] at hb
  obtain ⟨i, -, hi⟩ := hb
  rw [← hi]
  exact Nat.mod_lt _ (by omega)

theorem secretbox_roundtrip (m nonce key : List Nat)
    (hm : ∀ b ∈ m, b < 256) :
    secretboxOpenEasy (secretboxEasy m nonce key) nonce key = some m := by
  simp only [secretboxEasy, secretboxOpenEasy]
  have hlen : (macTag key nonce (streamEncrypt key nonce 0 m) ++
      streamEncrypt key nonce 0 m).length ≥ 16 := by
    simp [length_macTag]
  rw [if_neg (by omega)]
  have htake : (macTag key nonce (streamEncrypt key nonce 0 m) ++
      streamEncrypt key nonce 0 m).take 16 =
      macTag key nonce (streamEncrypt key nonce 0 m) := by
    rw [← length_macTag key nonce (streamEncrypt key nonce 0 m)]
    exact List.take_left _ _
  have hdrop : (macTag key nonce (streamEncrypt key nonce 0 m) ++
      streamEncrypt key nonce 0 m).drop 16 =
      streamEncrypt key nonce 0 m := by
    rw [← length_macTag key nonce (streamEncrypt key nonce 0 m)]
    exact List.drop_left _ _
  rw [htake, hdrop, if_pos rfl, streamDecrypt_streamEncrypt key nonce 0 m hm]

theorem secretboxEasy_lt (m nonce key : List Nat) :
    ∀ b ∈ secretboxEasy m nonce key, b < 256 := by
  intro b hb
  simp only [secretboxEasy] at hb
  rcases List.mem_append.mp hb with h | h
  · exact macTag_lt key nonce _ b h
  · exact streamEncrypt_lt key nonce 0 m b h

/-! ### `JSON.stringify` / `JSON.parse` on event contents

The plaintext handed to the cipher is
`JSON.stringify({type: event.type, data: event.data})`, an object of the
three fixed shapes built by `appendEvent` / `setProperty` /
`deleteProperty`, with string-valued fields.  `stringifyContent` produces
exactly the bytes `JSON.stringify` produces on these values (insertion
order of the object literals, `JSON.stringify`'s string escaping:
backslash escapes for `"` and `\\`, short escapes for the five named
control characters, `\\u00XX` with lowercase hex for the remaining
control characters, all other code points verbatim); `parseContent`
models `JSON.parse`'s action on this fragment. -/

/-- The code points of a Lean string literal (all ASCII here). -/
def lit (s : String) : List Nat := s.toList.map Char.toNat

/-- A lowercase hex digit's character code. -/
def hexDigit (n : Nat) : Nat := if n < 10 then 48 + n else 87 + n

/-- The value of a hex digit character code. -/
def hexVal (c : Nat) : Option Nat :=
  if 48 ≤ c ∧ c ≤ 57 then some (c - 48)
  else if 97 ≤ c ∧ c ≤ 102 then some (c - 87)
  else if 65 ≤ c ∧ c ≤ 70 then some (c - 55)
  else none

/-- `JSON.stringify`'s escaping of one string character. -/
def escapeChar (c : Nat) : List Nat :=
  if c = 34 then [92, 34]
  else if c = 92 then [92, 92]
  else if c = 8 then [92, 98]
  else if c = 9 then [92, 116]
  else if c = 10 then [92, 110]
  else if c = 12 then [92, 102]
  else if c = 13 then [92, 114]
  else if c < 32 then [92, 117, 48, 48, hexDigit (c / 16), hexDigit (c % 16)]
  else [c]

/-- `JSON.stringify`'s escaping of a whole string (without the
surrounding quotes). -/
def escapeString : List Nat → List Nat
  | [] => []
  | c :: rest => escapeChar c ++ escapeString rest

/-- Parsing `\uXXXX`'s four hex digits. -/
def parseHex4 : List Nat → Option (Nat × List Nat)
  | h1 :: h2 :: h3 :: h4 :: rest =>
    match hexVal h1, hexVal h2, hexVal h3, hexVal h4 with
    | some v1, some v2, some v3, some v4 =>
      some (((v1 * 16 + v2) * 16 + v3) * 16 + v4, rest)
    | _, _, _, _ => none
  | _ => none

/-- Parsing one escape sequence, after the backslash. -/
def parseEscape : List Nat → Option (Nat × List Nat)
  | [] => none
  | e :: rest =>
    if e = 34 then some (34, rest)
    else if e = 92 then some (92, rest)
    else if e = 47 then some (47, rest)
    else if e = 98 then some (8, rest)
    else if e = 116 then some (9, rest)
    else if e = 110 then some (10, rest)
    else if e = 102 then some (12, rest)
    else if e = 114 then some (13, rest)
    else if e = 117 then parseHex4 rest
    else none

/-- Parsing a JSON string body after its opening quote, through the
closing quote; fuelled, one unit per character. -/
def parseStringBody : Nat → List Nat → Option (List Nat × List Nat)
  | _, [] => none
  | 0, _ :: _ => none
  | fuel + 1, c :: rest =>
    if c = 34 then some ([], rest)
    else if c = 92 then
      match parseEscape rest with
      | none => none
      | some (ch, rest2) =>
        (parseStringBody fuel rest2).map fun p => (ch :: p.1, p.2)
    else (parseStringBody fuel rest).map fun p => (c :: p.1, p.2)

/-- Parsing a JSON string body, with the input length as (sufficient)
fuel. -/
def parseJsonString (l : List Nat) : Option (List Nat × List Nat) :=
  parseStringBody l.length l

theorem length_le_escapeString (s : List Nat) :
    s.length ≤ (escapeString s).length := by
  induction s with
  | nil => simp [escapeString]
  | cons c rest ih =>
    have h1 : 1 ≤ (escapeChar c).length := by
      unfold escapeChar
      split_ifs <;> simp
    show (c :: rest).length ≤ (escapeChar c ++ escapeString rest).length
    simp only [List.length_cons, List.length_append]
    omega

theorem hexVal_hexDigit_fin : ∀ n : Fin 16, hexVal (hexDigit n.val) = some n.val := by
  decide

theorem hexVal_hexDigit (n : Nat) (h : n < 16) :
    hexVal (hexDigit n) = some n :=
  hexVal_hexDigit_fin ⟨n, h⟩

theorem parseHex4_low (c : Nat) (hc : c < 256) (rest : List Nat) :
    parseHex4 (48 :: 48 :: hexDigit (c / 16) :: hexDigit (c % 16) :: rest) =
      some (c, rest) := by
  have h48 : hexVal 48 = some 0 := by decide
  simp only [parseHex4, h48, hexVal_hexDigit (c / 16) (by omega),
    hexVal_hexDigit (c % 16) (by omega)]
  simp only [Option.some.injEq, Prod.mk.injEq, and_true]
  omega

theorem parseStringBody_escape :
    ∀ (s : List Nat) (fuel : Nat) (rest : List Nat),
      s.length + 1 ≤ fuel →
      parseStringBody fuel (escapeString s ++ 34 :: rest) = some (s, rest) := by
  intro s
  induction s with
  | nil =>
    intro fuel rest hfuel
    obtain ⟨f, rfl⟩ : ∃ f, fuel = f + 1 := by
      cases fuel with
      | zero => omega
      | succ f => exact ⟨f, rfl⟩
    simp [escapeString, parseStringBody]
  | cons c s' ih =>
    intro fuel rest hfuel
    obtain ⟨f, rfl⟩ : ∃ f, fuel = f + 1 := by
      cases fuel with
      | zero => omega
      | succ f => exact ⟨f, rfl⟩
    have hfuel' : s'.length + 1 ≤ f := by
      simp only [List.length_cons] at hfuel
      omega
    have ihs := ih f rest hfuel'
    show parseStringBody (f + 1)
      ((escapeChar c ++ escapeString s') ++ 34 :: rest) = some (c :: s', rest)
    by_cases h34 : c = 34
    · subst h34
      have hesc : escapeChar 34 = [92, 34] := by decide
      rw [hesc]
      simp only [List.append_assoc, List.cons_append, List.nil_append]
      simp only [parseStringBody]
      have hpe : parseEscape (34 :: (escapeString s' ++ 34 :: rest)) =
          some (34, escapeString s' ++ 34 :: rest) := by
        simp [parseEscape]
      rw [if_neg (by omega), if_pos trivial, hpe]
      dsimp only
      rw [ihs]
      rfl
    by_cases h92 : c = 92
    · subst h92
      have hesc : escapeChar 92 = [92, 92] := by decide
      rw [hesc]
      simp only [List.append_assoc, List.cons_append, List.nil_append]
      simp only [parseStringBody]
      have hpe : parseEscape (92 :: (escapeString s' ++ 34 :: rest)) =
          some (92, escapeString s' ++ 34 :: rest) := by
        simp [parseEscape]
      rw [if_neg (by omega), if_pos trivial, hpe]
      dsimp only
      rw [ihs]
      rfl
    by_cases h8 : c = 8
    · subst h8
      have hesc : escapeChar 8 = [92, 98] := by decide
      rw [hesc]
      simp only [List.append_assoc, List.cons_append, List.nil_append]
      simp only [parseStringBody]
      have hpe : parseEscape (98 :: (escapeString s' ++ 34 :: rest)) =
          some (8, escapeString s' ++ 34 :: rest) := by
        simp [parseEscape]
      rw [if_neg (by omega), if_pos trivial, hpe]
      dsimp only
      rw [ihs]
      rfl
    by_cases h9 : c = 9
    · subst h9
      have hesc : escapeChar 9 = [92, 116] := by decide
      rw [hesc]
      simp only [List.append_assoc, List.cons_append, List.nil_append]
      simp only [parseStringBody]
      have hpe : parseEscape (116 :: (escapeString s' ++ 34 :: rest)) =
          some (9, escapeString s' ++ 34 :: rest) := by
        simp [parseEscape]
      rw [if_neg (by omega), if_pos trivial, hpe]
      dsimp only
      rw [ihs]
      rfl
    by_cases h10 : c = 10
    · subst h10
      have hesc : escapeChar 10 = [92, 110] := by decide
      rw [hesc]
      simp only [List.append_assoc, List.cons_append, List.nil_append]
      simp only [parseStringBody]
      have hpe : parseEscape (110 :: (escapeString s' ++ 34 :: rest)) =
          some (10, escapeString s' ++ 34 :: rest) := by
        simp [parseEscape]
      rw [if_neg (by omega), if_pos trivial, hpe]
      dsimp only
      rw [ihs]
      rfl
    by_cases h12 : c = 12
    · subst h12
      have hesc : escapeChar 12 = [92, 102] := by decide
      rw [hesc]
      simp only [List.append_assoc, List.cons_append, List.nil_append]
      simp only [parseStringBody]
      have hpe : parseEscape (102 :: (escapeString s' ++ 34 :: rest)) =
          some (12, escapeString s' ++ 34 :: rest) := by
        simp [parseEscape]
      rw [if_neg (by omega), if_pos trivial, hpe]
      dsimp only
      rw [ihs]
      rfl
    by_cases h13 : c = 13
    · subst h13
      have hesc : escapeChar 13 = [92, 114] := by decide
      rw [hesc]
      simp only [List.append_assoc, List.cons_append, List.nil_append]
      simp only [parseStringBody]
      have hpe : parseEscape (114 :: (escapeString s' ++ 34 :: rest)) =
          some (13, escapeString s' ++ 34 :: rest) := by
        simp [parseEscape]
      rw [if_neg (by omega), if_pos trivial, hpe]
      dsimp only
      rw [ihs]
      rfl
    by_cases hctl : c < 32
    · have hesc : escapeChar c =
          [92, 117, 48, 48, hexDigit (c / 16), hexDigit (c % 16)] := by
        unfold escapeChar
        rw [if_neg h34, if_neg h92, if_neg h8, if_neg h9, if_neg h10, if_neg h12, if_neg h13, if_pos hctl]
      rw [hesc]
      simp only [List.append_assoc, List.cons_append, List.nil_append]
      simp only [parseStringBody]
      have hhex := parseHex4_low c (by omega)
        (escapeString s' ++ 34 :: rest)
      have hpe : parseEscape (117 :: 48 :: 48 :: hexDigit (c / 16) ::
          hexDigit (c % 16) :: (escapeString s' ++ 34 :: rest)) =
          some (c, escapeString s' ++ 34 :: rest) := by
        simp only [parseEscape]
        norm_num
        exact hhex
      rw [if_neg (by omega), if_pos trivial, hpe]
      dsimp only
      rw [ihs]
      rfl
    · have hesc : escapeChar c = [c] := by
        unfold escapeChar
        rw [if_neg h34, if_neg h92, if_neg h8, if_neg h9, if_neg h10, if_neg h12, if_neg h13, if_neg hctl]
      rw [hesc]
      simp only [List.append_assoc, List.cons_append, List.nil_append]
      simp only [parseStringBody]
      rw [if_neg h34, if_neg h92, ihs]
      rfl

theorem parseJsonString_escape (s : List Nat) (rest : List Nat) :
    parseJsonString (escapeString s ++ 34 :: rest) = some (s, rest) := by
  apply parseStringBody_escape
  have h1 := length_le_escapeString s
  simp only [List.length_append, List.length_cons]
  omega

/-- The plaintext handed to the codec (`DecryptedEventContent` in the
source): the `{type, data}` object, with its string fields as code-point
lists. -/
inductive DecryptedEventContent where
  | entityCreated (entityId : List Nat)
  | propertySet (key value : List Nat)
  | propertyDeleted (key : List Nat)
  deriving DecidableEq, Repr

/-- `JSON.stringify({type, data})` on the three content shapes: object
keys in insertion order, string values escaped. -/
def stringifyContent : DecryptedEventContent → List Nat
  | .entityCreated i =>
    lit "\x7b\"type\":\"" ++ (lit "EntityCreated" ++
      (34 :: (lit ",\"data\":\x7b\"entityId\":\"" ++
        (escapeString i ++ (34 :: lit "\x7d\x7d")))))
  | .propertySet k v =>
    lit "\x7b\"type\":\"" ++ (lit "PropertySet" ++
      (34 :: (lit ",\"data\":\x7b\"key\":\"" ++
        (escapeString k ++ (34 :: (lit ",\"value\":\"" ++
          (escapeString v ++ (34 :: lit "\x7d\x7d"))))))))
  | .propertyDeleted k =>
    lit "\x7b\"type\":\"" ++ (lit "PropertyDeleted" ++
      (34 :: (lit ",\"data\":\x7b\"key\":\"" ++
        (escapeString k ++ (34 :: lit "\x7d\x7d")))))

/-- Consume an expected literal prefix. -/
def stripPrefix : List Nat → List Nat → Option (List Nat)
  | [], l => some l
  | _ :: _, [] => none
  | p :: ps, c :: cs => if c = p then stripPrefix ps cs else none

/-- `JSON.parse` on the event-content fragment: dispatch on the `type`
string, then read the `data` object of the corresponding shape. -/
def parseContent (l : List Nat) : Option DecryptedEventContent :=
  match stripPrefix (lit "\x7b\"type\":\"") l with
  | none => none
  | some r0 =>
    match parseJsonString r0 with
    | none => none
    | some (tname, r1) =>
      if tname = lit "EntityCreated" then
        match stripPrefix (lit ",\"data\":\x7b\"entityId\":\"") r1 with
        | none => none
        | some r2 =>
          match parseJsonString r2 with
          | none => none
          | some (i, r3) =>
            if r3 = lit "\x7d\x7d" then some (.entityCreated i) else none
      else if tname = lit "PropertySet" then
        match stripPrefix (lit ",\"data\":\x7b\"key\":\"") r1 with
        | none => none
        | some r2 =>
          match parseJsonString r2 with
          | none => none
          | some (k, r3) =>
            match stripPrefix (lit ",\"value\":\"") r3 with
            | none => none
            | some r4 =>
              match parseJsonString r4 with
              | none => none
              | some (v, r5) =>
                if r5 = lit "\x7d\x7d" then some (.propertySet k v) else none
      else if tname = lit "PropertyDeleted" then
        match stripPrefix (lit ",\"data\":\x7b\"key\":\"") r1 with
        | none => none
        | some r2 =>
          match parseJsonString r2 with
          | none => none
          | some (k, r3) =>
            if r3 = lit "\x7d\x7d" then some (.propertyDeleted k) else none
      else none

theorem stripPrefix_append (p r : List Nat) :
    stripPrefix p (p ++ r) = some r := by
  induction p with
  | nil => rfl
  | cons c ps ih => simp [stripPrefix, ih]

theorem parseContent_stringify (d : DecryptedEventContent) :
    parseContent (stringifyContent d) = some d := by
  cases d with
  | entityCreated i =>
    have h1 : escapeString (lit "EntityCreated") = lit "EntityCreated" := by
      decide
    have h2 := parseJsonString_escape (lit "EntityCreated")
      (lit ",\"data\":\x7b\"entityId\":\"" ++ (escapeString i ++ (34 :: lit "\x7d\x7d")))
    rw [h1] at h2
    have h3 := parseJsonString_escape i (lit "\x7d\x7d")
    simp only [stringifyContent, parseContent, stripPrefix_append]
    rw [h2]
    dsimp only
    rw [if_pos rfl, stripPrefix_append]
    dsimp only
    rw [h3]
    dsimp only
    rw [if_pos rfl]
  | propertySet k v =>
    have h1 : escapeString (lit "PropertySet") = lit "PropertySet" := by
      decide
    have h2 := parseJsonString_escape (lit "PropertySet")
      (lit ",\"data\":\x7b\"key\":\"" ++ (escapeString k ++
        (34 :: (lit ",\"value\":\"" ++ (escapeString v ++ (34 :: lit "\x7d\x7d"))))))
    rw [h1] at h2
    have h3 := parseJsonString_escape k
      (lit ",\"value\":\"" ++ (escapeString v ++ (34 :: lit "\x7d\x7d")))
    have h4 := parseJsonString_escape v (lit "\x7d\x7d")
    simp only [stringifyContent, parseContent, stripPrefix_append]
    rw [h2]
    dsimp only
    rw [if_neg (by decide), if_pos rfl, stripPrefix_append]
    dsimp only
    rw [h3]
    dsimp only
    rw [stripPrefix_append]
    dsimp only
    rw [h4]
    dsimp only
    rw [if_pos rfl]
  | propertyDeleted k =>
    have h1 : escapeString (lit "PropertyDeleted") = lit "PropertyDeleted" := by
      decide
    have h2 := parseJsonString_escape (lit "PropertyDeleted")
      (lit ",\"data\":\x7b\"key\":\"" ++ (escapeString k ++ (34 :: lit "\x7d\x7d")))
    rw [h1] at h2
    have h3 := parseJsonString_escape k (lit "\x7d\x7d")
    simp only [stringifyContent, parseContent, stripPrefix_append]
    rw [h2]
    dsimp only
    rw [if_neg (by decide), if_neg (by decide), if_pos rfl,
      stripPrefix_append]
    dsimp only
    rw [h3]
    dsimp only
    rw [if_pos rfl]

/-- All code points of a literal are valid scalar values. -/
theorem lit_lt (s : String) : ∀ c ∈ lit s, c < 0x110000 := by
  intro c hc
  simp only [lit, List.mem_map] at hc
  obtain ⟨ch, -, rfl⟩ := hc
  have hv : ch.val.toNat.isValidChar := ch.valid
  rcases hv with h | ⟨-, h⟩
  · exact Nat.lt_trans h (by norm_num)
  · exact h

theorem escapeChar_lt (c : Nat) (hc : c < 0x110000) :
    ∀ b ∈ escapeChar c, b < 0x110000 := by
  intro b hb
  unfold escapeChar hexDigit at hb
  split_ifs at hb <;> simp at hb <;> omega

theorem escapeString_lt (s : List Nat) (hs : ∀ c ∈ s, c < 0x110000) :
    ∀ b ∈ escapeString s, b < 0x110000 := by
  induction s with
  | nil => intro b hb; simp [escapeString] at hb
  | cons c rest ih =>
    intro b hb
    rcases List.mem_append.mp hb with h | h
    · exact escapeChar_lt c (hs c (by simp)) b h
    · exact ih (fun c' h' => hs c' (by simp [h'])) b h

/-- Validity of a JS string's code points (what `TextEncoder` requires). -/
abbrev validStr (s : List Nat) : Prop := ∀ c ∈ s, c < 0x110000

/-- Validity of an event content's string fields. -/
def validContent : DecryptedEventContent → Prop
  | .entityCreated i => validStr i
  | .propertySet k v => validStr k ∧ validStr v
  | .propertyDeleted k => validStr k

theorem stringifyContent_lt (d : DecryptedEventContent)
    (hd : validContent d) : ∀ c ∈ stringifyContent d, c < 0x110000 := by
  cases d with
  | entityCreated i =>
    intro c hc
    simp only [stringifyContent, List.mem_append, List.mem_cons] at hc
    rcases hc with h | h | h | h | h | h
    · exact lit_lt _ c h
    · exact lit_lt _ c h
    · omega
    · exact lit_lt _ c h
    · exact escapeString_lt i hd c h
    · rcases h with h | h
      · omega
      · exact lit_lt _ c h
  | propertySet k v =>
    intro c hc
    simp only [stringifyContent, List.mem_append, List.mem_cons] at hc
    rcases hc with h | h | h | h | h | h
    · exact lit_lt _ c h
    · exact lit_lt _ c h
    · omega
    · exact lit_lt _ c h
    · exact escapeString_lt k hd.1 c h
    · rcases h with h | h | h | h
      · omega
      · exact lit_lt _ c h
      · exact escapeString_lt v hd.2 c h
      · rcases h with h | h
        · omega
        · exact lit_lt _ c h
  | propertyDeleted k =>
    intro c hc
    simp only [stringifyContent, List.mem_append, List.mem_cons] at hc
    rcases hc with h | h | h | h | h | h
    · exact lit_lt _ c h
    · exact lit_lt _ c h
    · omega
    · exact lit_lt _ c h
    · exact escapeString_lt k hd c h
    · rcases h with h | h
      · omega
      · exact lit_lt _ c h

/-! ### The codec itself -/

/-- The wire payload produced by `encryptJson` (`EncryptedPayload` in the
crypto lib): version, algorithm tag, and base64url nonce and ciphertext
(as character codes). -/
structure EncryptedPayload where
  version : Nat
  alg : String
  nonce : List Nat
  ciphertext : List Nat
  deriving DecidableEq, Repr

/-- `encryptJson(rawPrivateKey, data)`: derive the content key, serialize
and UTF-8-encode the content, seal it under the (per-call random) nonce,
and base64url-encode nonce and ciphertext. -/
def encryptJson (rawPrivateKey nonce : List Nat)
    (data : DecryptedEventContent) : EncryptedPayload :=
  let key := deriveEntityContentKey rawPrivateKey
  let plaintext := utf8Encode (stringifyContent data)
  let ciphertext := secretboxEasy plaintext nonce key
  { version := 1
    alg := "XSALSA20-POLY1305"
    nonce := b64Encode nonce
    ciphertext := b64Encode ciphertext }

/-- `decryptJson(rawPrivateKey, payload)`: derive the same content key,
base64url-decode nonce and ciphertext, open the box, UTF-8-decode and
`JSON.parse` the plaintext. -/
def decryptJson (rawPrivateKey : List Nat) (payload : EncryptedPayload) :
    Option DecryptedEventContent :=
  (b64Decode payload.nonce).bind fun nonce =>
    (b64Decode payload.ciphertext).bind fun ct =>
      (secretboxOpenEasy ct nonce (deriveEntityContentKey rawPrivateKey)).bind
        fun plaintext =>
          (utf8Decode plaintext).bind fun s => parseContent s

/-- Claim C5 (confirmed): for every content key derived from a private
key, every nonce, and every JSON-structured event plaintext (an event
content whose strings are valid Unicode scalar sequences),
`decryptJson(k, encryptJson(k, p)) = p`: the two sides derive the same
key from the private key, the nonce travels inside the payload, and
base64, the authenticated cipher, UTF-8 and the JSON serialization all
round-trip. -/
theorem claim_C5 (rawPrivateKey nonce : List Nat)
    (data : DecryptedEventContent)
    (hnonce : ∀ b ∈ nonce, b < 256) (hdata : validContent data) :
    decryptJson rawPrivateKey (encryptJson rawPrivateKey nonce data) =
      some data := by
  have hplainvalid := stringifyContent_lt data hdata
  have hplainbytes := utf8Encode_lt (stringifyContent data) hplainvalid
  have hct := secretboxEasy_lt (utf8Encode (stringifyContent data)) nonce
    (deriveEntityContentKey rawPrivateKey)
  simp only [encryptJson, decryptJson]
  rw [b64_roundtrip nonce hnonce, b64_roundtrip _ hct]
  simp only [Option.some_bind]
  rw [secretbox_roundtrip _ _ _ hplainbytes]
  simp only [Option.some_bind]
  rw [utf8_roundtrip _ hplainvalid]
  simp only [Option.some_bind]
  exact parseContent_stringify data

theorem claim_C5_witness :
    decryptJson [1, 2, 3]
      (encryptJson [1, 2, 3] (List.replicate 24 7)
        (.propertySet (lit "givenName") (lit "Max"))) =
      some (.propertySet (lit "givenName") (lit "Max")) :=
  claim_C5 [1, 2, 3] (List.replicate 24 7)
    (.propertySet (lit "givenName") (lit "Max"))
    (by decide) ⟨by decide, by decide⟩

end TrueTrace
